import Mathlib

/-!
Verification of the binary numeric codec of `use-url-params`.

This file gives a shallow embedding, in Lean, of the codec implemented in
`src/alphabet.ts`, `src/binary.ts` and `src/float.ts` of the repository:
IEEE-754 decomposition, fixed-point conversion with a shared exponent,
a bit-level buffer (`BitBuffer`), byte- and bit-level base64 codecs over
swappable 64-character alphabets, and the float/point parameter factories
built from them.

Conventions of the embedding:
* a JavaScript double is represented by its 64-bit IEEE-754 pattern, a
  natural number below `2 ^ 64`; its numeric value is recovered by `val`;
* JavaScript `bigint` arithmetic is exact, so it is modelled by `Nat`
  (all reachable bigints here are nonnegative) with explicit helpers for
  shifts by possibly negative amounts (JavaScript shifts by a negative
  bigint reverse direction);
* 32-bit `number` bitwise operations (`&`, `<<` on numbers) are modelled
  by `toInt32`/`toUint32` wrappers where their wrapping can matter;
* strings are lists of characters; a thrown exception is `none`/`Except`.
-/

namespace UP

/-! ### JavaScript arithmetic helpers -/

/-- ToUint32 of an integral JavaScript number: reduce modulo `2 ^ 32`. -/
def toUint32 (a : Int) : Nat := (a % (2 ^ 32 : Int)).toNat

/-- ToInt32 of an integral JavaScript number: reduce modulo `2 ^ 32` into
the signed range. -/
def toInt32 (a : Int) : Int :=
  let m := toUint32 a
  if m < 2 ^ 31 then (m : Int) else (m : Int) - 2 ^ 32

/-- JavaScript `a << b` on 32-bit numbers. -/
def jsShiftL32 (a b : Int) : Int := toInt32 ((toUint32 a <<< (toUint32 b % 32) : Nat) : Int)

/-- JavaScript `a & b` on 32-bit numbers. -/
def jsAnd32 (a b : Int) : Int := toInt32 ((Nat.land (toUint32 a) (toUint32 b) : Nat) : Int)

/-- JavaScript bigint left shift `m << s`: a negative shift amount shifts
right instead (only nonnegative bigints occur in this codec). -/
def jsShlB (m : Nat) (s : Int) : Nat :=
  if 0 ≤ s then m <<< s.toNat else m >>> (-s).toNat

/-- JavaScript bigint right shift `m >> s`: a negative shift amount shifts
left instead. -/
def jsShrB (m : Nat) (s : Int) : Nat :=
  if 0 ≤ s then m >>> s.toNat else m <<< (-s).toNat

/-- Halving loop behind `bitLen`, with explicit fuel so that it is
structurally recursive (and hence computable inside the kernel); any fuel
of at least `n` gives the same result. -/
def bitLenGo : Nat → Nat → Nat
  | 0, _ => 0
  | fuel + 1, n => if n = 0 then 0 else bitLenGo fuel (n / 2) + 1

/-- Length of the binary representation: `n.toString(2).length` for `n > 0`,
and `0` for `n = 0` (the source only uses it behind a zero guard). -/
def bitLen (n : Nat) : Nat := bitLenGo n n

theorem bitLenGo_zero : ∀ fuel, bitLenGo fuel 0 = 0 := by
  intro fuel
  cases fuel <;> rfl

theorem bitLenGo_congr : ∀ f1 {n} f2, n ≤ f1 → n ≤ f2 → bitLenGo f1 n = bitLenGo f2 n := by
  intro f1
  induction f1 with
  | zero =>
    intro n f2 h1 _
    have : n = 0 := by omega
    subst this
    rw [bitLenGo_zero, bitLenGo_zero]
  | succ f ih =>
    intro n f2 h1 h2
    by_cases hn : n = 0
    · subst hn
      rw [bitLenGo_zero, bitLenGo_zero]
    · rcases f2 with _ | g
      · omega
      · show (if n = 0 then 0 else bitLenGo f (n / 2) + 1) =
          (if n = 0 then 0 else bitLenGo g (n / 2) + 1)
        rw [if_neg hn, if_neg hn, ih g (by omega) (by omega)]

/-- The defining recurrence of `bitLen`. -/
theorem bitLen_rec (n : Nat) : bitLen n = if n = 0 then 0 else bitLen (n / 2) + 1 := by
  rcases n with _ | m
  · rfl
  · show (if m + 1 = 0 then 0 else bitLenGo m ((m + 1) / 2) + 1) = _
    rw [if_neg (by omega), if_neg (by omega)]
    unfold bitLen
    rw [bitLenGo_congr m ((m + 1) / 2) (by omega) (by omega)]

/-! ### IEEE-754 pattern views

A finite double is its big-endian 64-bit pattern. `expField`/`mantField`
read the raw fields; `val` is the real value of a finite pattern. -/

/-- Raw 11-bit exponent field of a 64-bit pattern. -/
def expField (w : Nat) : Nat := (w >>> 52) &&& 2047

/-- Raw 52-bit mantissa field of a 64-bit pattern. -/
def mantField (w : Nat) : Nat := w &&& (2 ^ 52 - 1)

/-- Sign bit of a 64-bit pattern. -/
def signBit (w : Nat) : Bool := w >>> 63 &&& 1 = 1

/-- The pattern denotes an IEEE-754 NaN. -/
def isNaNPat (w : Nat) : Bool := expField w = 2047 && mantField w != 0

/-- The pattern denotes `+0` or `-0`. -/
def isZeroPat (w : Nat) : Bool := expField w = 0 && mantField w = 0

/-- The pattern denotes a finite double (not NaN, not an infinity). -/
def finitePat (w : Nat) : Prop := w < 2 ^ 64 ∧ expField w ≠ 2047

/-- The pattern denotes a normal finite double. -/
def normalPat (w : Nat) : Prop := w < 2 ^ 64 ∧ 1 ≤ expField w ∧ expField w ≤ 2046

/-- JavaScript `===` on the doubles denoted by two patterns: numeric
equality, so `+0 === -0` and `NaN !== NaN`. -/
def jsEq (a b : Nat) : Bool :=
  !isNaNPat a && !isNaNPat b && (a == b || (isZeroPat a && isZeroPat b))

/-- Real value of a finite 64-bit pattern (IEEE-754 semantics of the
JavaScript `number` the pattern encodes). -/
def val (w : Nat) : ℚ :=
  let s : ℚ := if signBit w then -1 else 1
  if expField w = 0 then
    s * mantField w * (2 : ℚ) ^ (-(1074 : Int))
  else
    s * ((2 : ℚ) ^ (52 : Nat) + mantField w) * (2 : ℚ) ^ ((expField w : Int) - 1075)

/-! ### Alphabet registry (`src/alphabet.ts`) -/

/-- `ALPHABETS.rfc4648`. -/
def rfc4648 : List Char :=
  "ABCDEFGHIJKLMNOPQRSTUVWXYZabcdefghijklmnopqrstuvwxyz0123456789-_".toList

/-- `ALPHABETS.sortable`. -/
def sortable : List Char :=
  "-0123456789ABCDEFGHIJKLMNOPQRSTUVWXYZ_abcdefghijklmnopqrstuvwxyz".toList

/-- The regular expression `[A-Za-z0-9\-_]` of `URL_SAFE_CHARS`. -/
def urlSafeChar (c : Char) : Bool :=
  ('A' ≤ c && c ≤ 'Z') || ('a' ≤ c && c ≤ 'z') || ('0' ≤ c && c ≤ '9') ||
    c == '-' || c == '_'

/-- `validateAlphabet` succeeds: 64 characters, no duplicate, all URL-safe.
An alphabet accepted by `resolveAlphabet` satisfies this. -/
def validAlphabet (a : List Char) : Prop :=
  a.length = 64 ∧ a.Nodup ∧ ∀ c ∈ a, urlSafeChar c

instance : DecidablePred validAlphabet := by
  intro a; unfold validAlphabet; infer_instance

/-- `createLookupMap`: a JavaScript `Map` built from `(char, index)` pairs in
index order; a later pair overwrites an earlier one, so lookup returns the
last index holding the character. -/
def createLookupMap (a : List Char) (c : Char) : Option Nat :=
  go a c 0
where
  go : List Char → Char → Nat → Option Nat
    | [], _, _ => none
    | x :: rest, c, i =>
      match go rest c (i + 1) with
      | some j => some j
      | none => if x == c then some i else none

/-! ### Byte-oriented base64 codec (`src/binary.ts`) -/

/-- The 6-bit groups emitted by `base64Encode`: the `while` loop reads three
bytes at a time (missing bytes default to `0`) and emits two, three or four
groups according to how many bytes the final chunk really had. -/
def base64EncodeGroups : List Nat → List Nat
  | [] => []
  | [b0] =>
    let n := b0 <<< 16
    [(n >>> 18) &&& 0x3f, (n >>> 12) &&& 0x3f]
  | [b0, b1] =>
    let n := (b0 <<< 16) ||| (b1 <<< 8)
    [(n >>> 18) &&& 0x3f, (n >>> 12) &&& 0x3f, (n >>> 6) &&& 0x3f]
  | b0 :: b1 :: b2 :: rest =>
    let n := (b0 <<< 16) ||| (b1 <<< 8) ||| b2
    ((n >>> 18) &&& 0x3f) :: ((n >>> 12) &&& 0x3f) :: ((n >>> 6) &&& 0x3f) ::
      (n &&& 0x3f) :: base64EncodeGroups rest

/-- `base64Encode(bytes, {alphabet})` with an already resolved alphabet. -/
def base64Encode (alph : List Char) (bytes : List Nat) : List Char :=
  (base64EncodeGroups bytes).map fun v => alph.getD v ' '

/-- `str.replace(/=+$/, '')`. -/
def stripTrailingEq (s : List Char) : List Char :=
  (s.reverse.dropWhile (· == '=')).reverse

/-- Body of the `base64Decode` loop: four characters at a time; a missing
character looks up as `undefined`, coerced to `0`; the third and fourth
output bytes are pushed only when the corresponding source index is in
range (`i+2 < str.length`, `i+3 < str.length`). -/
def base64DecodeAux (lookup : Char → Option Nat) : List Char → List Nat
  | [] => []
  | [c0] =>
    let n := (lookup c0).getD 0 <<< 18
    [(n >>> 16) &&& 0xff]
  | [c0, c1] =>
    let n := ((lookup c0).getD 0 <<< 18) ||| ((lookup c1).getD 0 <<< 12)
    [(n >>> 16) &&& 0xff]
  | [c0, c1, c2] =>
    let n := ((lookup c0).getD 0 <<< 18) ||| ((lookup c1).getD 0 <<< 12) |||
      ((lookup c2).getD 0 <<< 6)
    [(n >>> 16) &&& 0xff, (n >>> 8) &&& 0xff]
  | c0 :: c1 :: c2 :: c3 :: rest =>
    let n := ((lookup c0).getD 0 <<< 18) ||| ((lookup c1).getD 0 <<< 12) |||
      ((lookup c2).getD 0 <<< 6) ||| (lookup c3).getD 0
    ((n >>> 16) &&& 0xff) :: ((n >>> 8) &&& 0xff) :: (n &&& 0xff) ::
      base64DecodeAux lookup rest

/-- `base64Decode(str, {alphabet})` with an already resolved alphabet: strip
trailing `=` padding, then decode leniently (never throws). -/
def base64Decode (alph : List Char) (s : List Char) : List Nat :=
  base64DecodeAux (createLookupMap alph) (stripTrailingEq s)

/-- `floatToBytes`: big-endian bytes of the 64-bit pattern. -/
def floatToBytes (w : Nat) : List Nat :=
  [(w >>> 56) &&& 0xff, (w >>> 48) &&& 0xff, (w >>> 40) &&& 0xff,
   (w >>> 32) &&& 0xff, (w >>> 24) &&& 0xff, (w >>> 16) &&& 0xff,
   (w >>> 8) &&& 0xff, w &&& 0xff]

/-- `bytesToFloat`: reassemble the first eight bytes big-endian; the
`DataView` constructor throws a `RangeError` when fewer than eight bytes
are available. -/
def bytesToFloat (bytes : List Nat) : Option Nat :=
  if bytes.length < 8 then none
  else some ((bytes.take 8).foldl (fun acc b => acc * 256 + b) 0)

/-! ### IEEE-754 decomposer and fixed-point converter (`src/float.ts`) -/

/-- Decomposed IEEE-754 double (interface `Float` of the source; named
`Float64` here because `Float` is taken by Lean). -/
structure Float64 where
  neg : Bool
  exp : Int
  mant : Nat
  deriving Repr, DecidableEq

/-- Fixed-point representation with shared exponent. -/
structure FixedPoint where
  neg : Bool
  exp : Int
  mant : Nat
  deriving Repr, DecidableEq

/-- Precision scheme for fixed-point encoding. -/
structure PrecisionScheme where
  expBits : Nat
  mantBits : Nat
  deriving Repr, DecidableEq

/-- `toFloat`: decompose the 64-bit pattern into sign, unbiased exponent
and 52-bit mantissa fraction. -/
def toFloat (x : Nat) : Float64 :=
  let byte0 := (x >>> 56) &&& 0xff
  let neg := byte0 &&& 0x80 != 0
  let exp : Int := ((((x >>> 48) &&& 0x7ff0) >>> 4 : Nat) : Int) - 1023
  let mant := x &&& (2 ^ 52 - 1)
  { neg := neg, exp := exp, mant := mant }

/-- `fromFloat`: reassemble the pattern; `setBigUint64` wraps the 64-bit
pattern modulo `2 ^ 64` (the shift `<< 52n` of a bigint is multiplication
by `2 ^ 52`). -/
def fromFloat (f : Float64) : Nat :=
  ((((if f.neg then (0x8000000000000000 : Int) else 0) +
      (f.exp + 1023) * 2 ^ 52 + (f.mant : Int)) % (2 ^ 64 : Int))).toNat

/-- `toFixedPoint(f, {mantBits, exp?})`: `none` models the thrown
`maxExp ... < ...` error. -/
def toFixedPoint (f : Float64) (mantBits : Nat) (expOpt : Option Int) :
    Option FixedPoint :=
  let fExp := f.exp + 1
  let exp := expOpt.getD fExp
  if fExp > exp then none
  else
    let downshiftBy : Int := exp - fExp + 53 - mantBits
    let roundUp := f.mant &&& jsShlB 1 (downshiftBy - 1)
    let mant := jsShrB f.mant downshiftBy
    let mant := if roundUp ≠ 0 then mant + 1 else mant
    let mant := mant ||| jsShlB 1 ((mantBits : Int) - 1 - (exp - fExp))
    some { neg := f.neg, exp := exp, mant := mant }

/-- `fromFixedPoint(f, mantBits)`. -/
def fromFixedPoint (f : FixedPoint) (mantBits : Nat) : Float64 :=
  let nonZeroBits : Nat := bitLen f.mant
  let exp : Int := f.exp - ((mantBits : Int) - nonZeroBits) - 1
  if f.mant = 0 then { neg := f.neg, exp := -1023, mant := 0 }
  else
    let mant := f.mant &&& ((1 <<< (nonZeroBits - 1)) - 1)
    let mant := jsShlB mant (f.exp - exp)
    let mant := jsShlB mant ((52 : Int) - mantBits)
    { neg := f.neg, exp := exp, mant := mant }

/-! ### Bit buffer (`src/float.ts`, class `BitBuffer`)

The field `end` of the source is called `endBits` here (`end` is a Lean
keyword). The write and read loops of `encodeInt`/`encodeBigInt` and
`decodeInt`/`decodeBigInt` are structurally identical; the `number`
(32-bit) and `bigint` variants coincide on the nonnegative values within
the widths this library uses (at most 30 bits for the `number` variant, as
documented, and exact bigints otherwise), so both are modelled by one
exact `Nat` loop, `encodeBitsAux`/`decodeBitsAux`. The loops terminate
because each iteration consumes `min numBits (8 - bitOffset) ≥ 1` bits;
the `8 ≤ bitOffset` guard below is unreachable for the cursor invariant
`bitOffset < 8` that every constructor and `seek` establishes, and makes
the recursion total. -/

/-- JavaScript `buf[i] = v` on an array: in range it stores, past the end it
extends the array (the holes read back as `undefined`, which the bitwise
reads coerce to `0`, so they are stored as `0`). -/
def setExtend (buf : List Nat) (i v : Nat) : List Nat :=
  if i < buf.length then buf.set i v
  else buf ++ List.replicate (i - buf.length) 0 ++ [v]

/-- One `while` loop of `encodeInt`/`encodeBigInt`: returns the new byte
array, byte offset and bit offset. -/
def encodeBitsAux (buf : List Nat) (byteOffset bitOffset n numBits : Nat) :
    List Nat × Nat × Nat :=
  if numBits = 0 ∨ 8 ≤ bitOffset then (buf, byteOffset, bitOffset)
  else
    let buf1 := if buf.length ≤ byteOffset then buf ++ [0] else buf
    let remainingBitsInByte := 8 - bitOffset
    let bitsToWrite := min numBits remainingBitsInByte
    let bitsLeftInByte := remainingBitsInByte - bitsToWrite
    let bitsLeftToWrite := numBits - bitsToWrite
    let mask := ((1 <<< bitsToWrite) - 1) <<< bitsLeftToWrite
    let shiftedBitsToWrite := (n &&& mask) >>> bitsLeftToWrite
    let buf2 := setExtend buf1 byteOffset
      ((buf1.getD byteOffset 0) ||| (shiftedBitsToWrite <<< bitsLeftInByte))
    let n' := n &&& ((1 <<< bitsLeftToWrite) - 1)
    if bitOffset + bitsToWrite = 8 then
      encodeBitsAux buf2 (byteOffset + 1) 0 n' bitsLeftToWrite
    else
      encodeBitsAux buf2 byteOffset (bitOffset + bitsToWrite) n' bitsLeftToWrite
decreasing_by
  all_goals simp_all only [not_or]; omega

/-- One `while` loop of `decodeInt`/`decodeBigInt`: returns the value read
and the new byte and bit offsets; a read past the array yields `undefined`,
coerced to `0` by `&`. -/
def decodeBitsAux (buf : List Nat) (byteOffset bitOffset n numBits : Nat) :
    Nat × Nat × Nat :=
  if numBits = 0 ∨ 8 ≤ bitOffset then (n, byteOffset, bitOffset)
  else
    let remainingBitsInByte := 8 - bitOffset
    let bitsToRead := min numBits remainingBitsInByte
    let bitsLeftInByte := remainingBitsInByte - bitsToRead
    let mask := ((1 <<< bitsToRead) - 1) <<< bitsLeftInByte
    let bits := ((buf.getD byteOffset 0) &&& mask) >>> bitsLeftInByte
    let n' := (n <<< bitsToRead) ||| bits
    if bitOffset + bitsToRead = 8 then
      decodeBitsAux buf (byteOffset + 1) 0 n' (numBits - bitsToRead)
    else
      decodeBitsAux buf byteOffset (bitOffset + bitsToRead) n' (numBits - bitsToRead)
decreasing_by
  all_goals simp_all only [not_or]; omega

/-- The `BitBuffer` class: growable byte storage, a cursor, and the
high-water mark `end` of bits ever written. -/
structure BitBuffer where
  buf : List Nat
  byteOffset : Nat
  bitOffset : Nat
  endBits : Nat
  deriving Repr, DecidableEq

namespace BitBuffer

/-- `new BitBuffer(numBytes?)`. -/
def new (numBytes : Nat) : BitBuffer :=
  { buf := List.replicate numBytes 0, byteOffset := 0, bitOffset := 0, endBits := 0 }

/-- Getter `totalBitOffset`. -/
def totalBitOffset (b : BitBuffer) : Nat := b.byteOffset * 8 + b.bitOffset

/-- `seek(totalBitOffset)`. -/
def seek (b : BitBuffer) (t : Nat) : BitBuffer :=
  { b with byteOffset := t >>> 3, bitOffset := t &&& 7 }

/-- Advance the cursor after a write loop and bump `end` if the cursor
passed it. -/
def afterWrite (b : BitBuffer) (r : List Nat × Nat × Nat) : BitBuffer :=
  let b' : BitBuffer :=
    { buf := r.1, byteOffset := r.2.1, bitOffset := r.2.2, endBits := b.endBits }
  if b'.totalBitOffset > b.endBits then { b' with endBits := b'.totalBitOffset } else b'

/-- `encodeInt(n, numBits)` (unsigned `number` of at most 30 bits). -/
def encodeInt (b : BitBuffer) (n numBits : Nat) : BitBuffer :=
  b.afterWrite (encodeBitsAux b.buf b.byteOffset b.bitOffset n numBits)

/-- `encodeBigInt(n, numBits)` (nonnegative bigint). -/
def encodeBigInt (b : BitBuffer) (n numBits : Nat) : BitBuffer :=
  b.afterWrite (encodeBitsAux b.buf b.byteOffset b.bitOffset n numBits)

/-- `decodeInt(numBits)`: value read plus the buffer with the advanced
cursor. -/
def decodeInt (b : BitBuffer) (numBits : Nat) : Nat × BitBuffer :=
  let r := decodeBitsAux b.buf b.byteOffset b.bitOffset 0 numBits
  (r.1, { b with byteOffset := r.2.1, bitOffset := r.2.2 })

/-- `decodeBigInt(numBits)`. -/
def decodeBigInt (b : BitBuffer) (numBits : Nat) : Nat × BitBuffer :=
  let r := decodeBitsAux b.buf b.byteOffset b.bitOffset 0 numBits
  (r.1, { b with byteOffset := r.2.1, bitOffset := r.2.2 })

/-- `encodeFixedPoints(vals, {expBits, mantBits})`: `none` models the thrown
shared-exponent overflow error (or an error from `toFixedPoint`, which in
fact cannot fire here). With no values, `Math.max()` is `-Infinity`: the
overflow check is false and `ToInt32(-Infinity + bias) = 0` is written. -/
def encodeFixedPoints (b : BitBuffer) (vals : List Nat) (s : PrecisionScheme) :
    Option BitBuffer :=
  let floats := vals.map toFloat
  match floats.map fun f => f.exp + 1 with
  | [] => some (b.encodeInt 0 s.expBits)
  | e :: es =>
    let maxExp := es.foldl max e
    if maxExp ≥ jsShiftL32 1 ((s.expBits : Int) - 1) then none
    else
      let expToWrite :=
        (jsAnd32 (maxExp + jsShiftL32 1 ((s.expBits : Int) - 1))
          (jsShiftL32 1 (s.expBits : Int) - 1)).toNat
      let b := b.encodeInt expToWrite s.expBits
      match floats.mapM fun f => toFixedPoint f s.mantBits (some maxExp) with
      | none => none
      | some fps =>
        some (fps.foldl
          (fun b fp => (b.encodeInt (if fp.neg then 1 else 0) 1).encodeBigInt fp.mant s.mantBits)
          b)

/-- The `for` loop of `decodeFixedPoints`. -/
def decodeFixedPointsLoop (b : BitBuffer) (exp : Int) (mantBits : Nat) :
    Nat → List Nat × BitBuffer
  | 0 => ([], b)
  | k + 1 =>
    let (negN, b1) := b.decodeInt 1
    let (mant, b2) := b1.decodeBigInt mantBits
    let f := fromFixedPoint { neg := negN == 1, exp := exp, mant := mant } mantBits
    let (rest, b3) := decodeFixedPointsLoop b2 exp mantBits k
    (fromFloat f :: rest, b3)

/-- `decodeFixedPoints(count, {expBits, mantBits})`: the decoded patterns
plus the buffer with the advanced cursor. -/
def decodeFixedPoints (b : BitBuffer) (count : Nat) (s : PrecisionScheme) :
    List Nat × BitBuffer :=
  let (expRaw, b1) := b.decodeInt s.expBits
  let exp : Int := (expRaw : Int) - jsShiftL32 1 ((s.expBits : Int) - 1)
  decodeFixedPointsLoop b1 exp s.mantBits count

/-- The serialization loop of `toBase64`. -/
def decodeCharsLoop (alph : List Char) (b : BitBuffer) : Nat → List Char
  | 0 => []
  | k + 1 =>
    let (v, b') := b.decodeInt 6
    alph.getD v ' ' :: decodeCharsLoop alph b' k

/-- `toBase64({alphabet})` with an already resolved alphabet: pad the
written bits to a multiple of six, then emit one character per 6-bit group.
In the source `numChars = this.end / 6` is a fractional `number` and the
loop `for (i = 0; i < numChars; i++)` runs `⌈end / 6⌉` times, here written
`(end + 5) / 6` in `Nat`. -/
def toBase64 (b : BitBuffer) (alph : List Char) : List Char :=
  let overhang := b.endBits % 6
  let b := if overhang ≠ 0 then b.encodeInt 0 (6 - overhang) else b
  let numChars := (b.endBits + 5) / 6
  let b := b.seek 0
  decodeCharsLoop alph b numChars

/-- `BitBuffer.fromBase64(str, {alphabet})` with an already resolved
alphabet: `none` models the `Invalid base64 character` error. -/
def fromBase64 (alph : List Char) (s : List Char) : Option BitBuffer := do
  let lookup := createLookupMap alph
  let b ← s.foldlM
    (fun (b : BitBuffer) c =>
      match lookup c with
      | none => none
      | some idx => some (b.encodeInt idx 6))
    (new 0)
  some (b.seek 0)

end BitBuffer

/-! ### Float and point codec factories (`src/float.ts`)

A converter is a pair of functions. Encoding can throw (there is no
`try`/`catch` in any `encode`), so its result is `Option (Option Str)`:
the outer `none` is a propagated exception, `some none` is the absent
sentinel `undefined`, and `some (some s)` is an encoded string. Decoding
wraps its body in `try { ... } catch { return default }`, so it is a total
function; where the body can throw, the model matches on the
`Option`-valued body and returns the default on `none`, exactly like the
`catch`. JavaScript number formatting and parsing (`toString`, `toFixed`,
`parseFloat`) have no bit-level content; the factories that use them take
those functions as parameters of the model. -/

/-- Encoder of `createLosslessBase64Param`. -/
def losslessEncode (alph : List Char) (defaultValue w : Nat) : Option (List Char) :=
  if jsEq w defaultValue then none
  else some (base64Encode alph (floatToBytes w))

/-- Decoder of `createLosslessBase64Param`; the only statement of its `try`
body that can throw is the `DataView` construction inside `bytesToFloat`
(fewer than eight decoded bytes), caught into the default. -/
def losslessDecode (alph : List Char) (defaultValue : Nat) (encoded : Option (List Char)) : Nat :=
  match encoded with
  | none => defaultValue
  | some s =>
    if s = [] then defaultValue
    else
      match bytesToFloat (base64Decode alph s) with
      | none => defaultValue
      | some w => w

/-- Encoder of `createLossyBase64Param`: `encodeFixedPoints` may throw and
nothing catches it. -/
def lossyEncode (alph : List Char) (defaultValue : Nat) (s : PrecisionScheme) (w : Nat) :
    Option (Option (List Char)) :=
  if jsEq w defaultValue then some none
  else
    match (BitBuffer.new 0).encodeFixedPoints [w] s with
    | none => none
    | some b => some (some (b.toBase64 alph))

/-- Decoder of `createLossyBase64Param`: `fromBase64` may throw, caught into
the default; `const [value] = decodeFixedPoints(1, scheme)` takes the head
of a one-element list. -/
def lossyDecode (alph : List Char) (defaultValue : Nat) (s : PrecisionScheme)
    (encoded : Option (List Char)) : Nat :=
  match encoded with
  | none => defaultValue
  | some str =>
    if str = [] then defaultValue
    else
      match BitBuffer.fromBase64 alph str with
      | none => defaultValue
      | some b => ((b.decodeFixedPoints 1 s).1).headD defaultValue

/-- Encoder of `createFullStringParam`; `numToString` models
`value.toString()`. -/
def fullStringEncode (numToString : Nat → List Char) (defaultValue w : Nat) :
    Option (List Char) :=
  if jsEq w defaultValue then none else some (numToString w)

/-- Decoder of `createFullStringParam`; `jsParseFloat` models `parseFloat`
(total, returning a NaN pattern on garbage, which the `isNaN` check routes
to the default). -/
def fullStringDecode (jsParseFloat : List Char → Nat) (defaultValue : Nat)
    (encoded : Option (List Char)) : Nat :=
  match encoded with
  | none => defaultValue
  | some s =>
    if s = [] then defaultValue
    else
      let parsed := jsParseFloat s
      if isNaNPat parsed then defaultValue else parsed

/-- Encoder of `createTruncatedStringParam`; `truncFixed` models
`(Math.round(value * m) / m).toFixed(decimals)` as a whole. -/
def truncatedStringEncode (truncFixed : Nat → List Char) (defaultValue w : Nat) :
    Option (List Char) :=
  if jsEq w defaultValue then none else some (truncFixed w)

/-- Decoder of `createTruncatedStringParam` (same body as the full string
decoder). -/
def truncatedStringDecode (jsParseFloat : List Char → Nat) (defaultValue : Nat)
    (encoded : Option (List Char)) : Nat :=
  match encoded with
  | none => defaultValue
  | some s =>
    if s = [] then defaultValue
    else
      let parsed := jsParseFloat s
      if isNaNPat parsed then defaultValue else parsed

/-- A 2D point as a pair of 64-bit patterns, or `null`. -/
def PointV := Option (Nat × Nat)

/-- Encoder of `pointParam` in base64 mode: shared-exponent encoding of
`[x, y]`; `encodeFixedPoints` may throw and nothing catches it. -/
def pointB64Encode (alph : List Char) (defaultPoint : Option (Nat × Nat))
    (s : PrecisionScheme) (point : Option (Nat × Nat)) :
    Option (Option (List Char)) :=
  match point with
  | none => some none
  | some (x, y) =>
    match defaultPoint with
    | some (dx, dy) =>
      if jsEq x dx && jsEq y dy then some none
      else
        match (BitBuffer.new 0).encodeFixedPoints [x, y] s with
        | none => none
        | some b => some (some (b.toBase64 alph))
    | none =>
      match (BitBuffer.new 0).encodeFixedPoints [x, y] s with
      | none => none
      | some b => some (some (b.toBase64 alph))

/-- Decoder of `pointParam` in base64 mode. -/
def pointB64Decode (alph : List Char) (defaultPoint : Option (Nat × Nat))
    (s : PrecisionScheme) (encoded : Option (List Char)) : Option (Nat × Nat) :=
  match encoded with
  | none => defaultPoint
  | some str =>
    if str = [] then defaultPoint
    else
      match BitBuffer.fromBase64 alph str with
      | none => defaultPoint
      | some b =>
        match (b.decodeFixedPoints 2 s).1 with
        | x :: y :: _ => some (x, y)
        | _ => none

/-- Encoder of `pointParam` in string mode; `formatPoint` models the
`toFixed`-based formatting with the space-or-minus delimiter. -/
def pointStringEncode (formatPoint : Nat × Nat → List Char)
    (defaultPoint : Option (Nat × Nat)) (point : Option (Nat × Nat)) :
    Option (List Char) :=
  match point with
  | none => none
  | some (x, y) =>
    match defaultPoint with
    | some (dx, dy) =>
      if jsEq x dx && jsEq y dy then none else some (formatPoint (x, y))
    | none => some (formatPoint (x, y))

/-- Decoder of `pointParam` in string mode; `parsePointBody` models the
body of its `try` block (splitting on space or on an inner minus sign and
`parseFloat`-ing the parts; none of those operations can throw, so the
`catch` is dead and the body result is returned as is). -/
def pointStringDecode (parsePointBody : List Char → Option (Nat × Nat))
    (defaultPoint : Option (Nat × Nat)) (encoded : Option (List Char)) :
    Option (Nat × Nat) :=
  match encoded with
  | none => defaultPoint
  | some s =>
    if s = [] then defaultPoint
    else parsePointBody s

/-! ### Specification-side helper definitions

Executable views used to state the theorems: numeric values of byte and
digit sequences, the bit-level view of a `BitBuffer`'s byte array, and the
wire layout of the fixed-point encoder. -/

/-- Big-endian unsigned integer value of a byte sequence (the numeric order
the claim compares against). -/
def beNat (bytes : List Nat) : Nat := bytes.foldl (fun acc b => acc * 256 + b) 0

/-- Value of a digit sequence in radix `B`, most significant first. -/
def radixVal (B : Nat) (ds : List Nat) : Nat := ds.foldl (fun acc d => acc * B + d) 0

/-- Bit `p` of a byte array, bytes MSB-first (the order `encodeInt` and
`decodeInt` use). -/
def bitAt (buf : List Nat) (p : Nat) : Bool :=
  (buf.getD (p / 8) 0).testBit (7 - p % 8)

/-- MSB-first value of the `w` bits of `f` starting at position `start`. -/
def bitsVal (f : Nat → Bool) (start : Nat) : Nat → Nat
  | 0 => 0
  | w + 1 => bitsVal f start w * 2 + (f (start + w)).toNat

/-- Bit `p` of the wire layout of a single-value `encodeFixedPoints`: an
`w1`-bit exponent field, one sign bit, a `w3`-bit mantissa field, zeros
beyond. -/
def fields3Bit (v1 w1 v2 v3 w3 p : Nat) : Bool :=
  if p < w1 then (v1 % 2 ^ w1).testBit (w1 - 1 - p)
  else if p < w1 + 1 then (v2 % 2 ^ 1).testBit (1 - 1 - (p - w1))
  else if p < w1 + 1 + w3 then (v3 % 2 ^ w3).testBit (w3 - 1 - (p - w1 - 1))
  else false

/-- Specification-side view of `toBase64`: one character per 6-bit group of
the bit function `f`, starting at position `c`. -/
def charsOf (f : Nat → Bool) (alph : List Char) : Nat → Nat → List Char
  | _, 0 => []
  | c, k + 1 => alph.getD (bitsVal f c 6) ' ' :: charsOf f alph (c + 6) k

/-! ## Proof machinery: lookup maps and the byte-oriented codec -/

theorem lor_eq_add (k a b : Nat) (ha : a % 2 ^ k = 0) (hb : b < 2 ^ k) :
    a ||| b = a + b := by
  obtain ⟨m, rfl⟩ := (Nat.dvd_of_mod_eq_zero ha)
  exact (Nat.mul_add_lt_is_or hb m).symm

theorem and63 (x : Nat) : x &&& 63 = x % 64 := by
  have h := Nat.and_pow_two_sub_one_eq_mod x 6
  norm_num at h
  exact h

theorem and255 (x : Nat) : x &&& 255 = x % 256 := by
  have h := Nat.and_pow_two_sub_one_eq_mod x 8
  norm_num at h
  exact h

theorem createLookupMap_go_eq_none {a : List Char} {c : Char} :
    ∀ i, createLookupMap.go a c i = none ↔ c ∉ a := by
  induction a with
  | nil => simp [createLookupMap.go]
  | cons x rest ih =>
    intro i
    simp only [createLookupMap.go]
    rcases h : createLookupMap.go rest c (i + 1) with _ | j
    · have hrest := (ih (i + 1)).mp h
      by_cases hx : x == c
      · simp only [hx, List.mem_cons]
        constructor
        · intro hcontra; cases hcontra
        · intro hmem
          exact absurd (Or.inl (by simpa [eq_comm] using (beq_iff_eq.mp hx))) hmem
      · simp only [hx, List.mem_cons]
        constructor
        · intro _ hmem
          rcases hmem with h1 | h2
          · exact hx (beq_iff_eq.mpr h1.symm)
          · exact hrest h2
        · intro _; rfl
    · have hrest := (ih (i + 1)).not.mp (by simp [h])
      push_neg at hrest
      simp only [List.mem_cons]
      constructor
      · intro hcontra; cases hcontra
      · intro hmem; exact absurd (Or.inr hrest) hmem

theorem createLookupMap_go_nodup {a : List Char} (hnd : a.Nodup) {c : Char} :
    ∀ {j : Nat} (hj : j < a.length), a.get ⟨j, hj⟩ = c →
      ∀ i, createLookupMap.go a c i = some (i + j) := by
  induction a with
  | nil => intro j hj; simp at hj
  | cons x rest ih =>
    intro j hj hc i
    rcases j with _ | k
    · simp only [List.get] at hc
      subst hc
      have hnot : x ∉ rest := (List.nodup_cons.mp hnd).1
      have hnone : createLookupMap.go rest x (i + 1) = none :=
        (createLookupMap_go_eq_none (i + 1)).mpr hnot
      simp [createLookupMap.go, hnone]
    · have hk : k < rest.length := by simpa using hj
      have hc' : rest.get ⟨k, hk⟩ = c := by simpa using hc
      have := ih (List.nodup_cons.mp hnd).2 hk hc' (i + 1)
      simp only [createLookupMap.go, this]
      congr 1
      omega

theorem createLookupMap_getD {a : List Char} (hnd : a.Nodup) {g : Nat}
    (hg : g < a.length) : createLookupMap a (a.getD g ' ') = some g := by
  have hget : a.getD g ' ' = a.get ⟨g, hg⟩ := by
    simp [List.getD_eq_getElem?_getD, List.getElem?_eq_getElem hg]
  rw [hget]
  simpa using createLookupMap_go_nodup hnd hg rfl 0

theorem encodeGroups_lt (bytes : List Nat) :
    ∀ g ∈ base64EncodeGroups bytes, g < 64 := by
  induction bytes using base64EncodeGroups.induct with
  | case1 => simp [base64EncodeGroups]
  | case2 b0 =>
    simp only [base64EncodeGroups, List.mem_cons, List.mem_singleton]
    intro g hg
    rcases hg with rfl | rfl | h
    · simp [and63]; omega
    · simp [and63]; omega
    · cases h
  | case3 b0 b1 =>
    simp only [base64EncodeGroups, List.mem_cons, List.mem_singleton]
    intro g hg
    rcases hg with rfl | rfl | rfl | h
    · simp [and63]; omega
    · simp [and63]; omega
    · simp [and63]; omega
    · cases h
  | case4 b0 b1 b2 rest ih =>
    simp only [base64EncodeGroups, List.mem_cons]
    intro g hg
    rcases hg with rfl | rfl | rfl | rfl | h
    · simp [and63]; omega
    · simp [and63]; omega
    · simp [and63]; omega
    · simp [and63]; omega
    · exact ih g h

theorem stripTrailingEq_of_no_eq {s : List Char} (h : ∀ c ∈ s, ¬ c == '=') :
    stripTrailingEq s = s := by
  unfold stripTrailingEq
  rw [List.dropWhile_eq_self_iff.mpr, List.reverse_reverse]
  intro hne
  exact h _ (by
    have := List.get_mem s.reverse 0 hne
    simp only [List.mem_reverse] at this
    exact this)

theorem base64Encode_mem_alph {alph : List Char} (hlen : alph.length = 64)
    (bytes : List Nat) : ∀ c ∈ base64Encode alph bytes, c ∈ alph := by
  intro c hc
  simp only [base64Encode, List.mem_map] at hc
  obtain ⟨g, hg, rfl⟩ := hc
  have := encodeGroups_lt bytes g hg
  have hglen : g < alph.length := by omega
  have : alph.getD g ' ' = alph.get ⟨g, hglen⟩ := by
    simp [List.getD_eq_getElem?_getD, List.getElem?_eq_getElem hglen]
  rw [this]
  exact List.get_mem _ _ _

theorem band63_lt (x : Nat) : x &&& 63 < 64 := by
  rw [and63]; omega

theorem recombine2 (g0 g1 : Nat) (h1 : g1 < 64) :
    (g0 <<< 18) ||| (g1 <<< 12) = g0 * 262144 + g1 * 4096 := by
  rw [Nat.shiftLeft_eq, Nat.shiftLeft_eq,
    lor_eq_add 18 (g0 * 2 ^ 18) (g1 * 2 ^ 12) (by omega) (by omega)]

theorem recombine3 (g0 g1 g2 : Nat) (h1 : g1 < 64) (h2 : g2 < 64) :
    (g0 <<< 18) ||| (g1 <<< 12) ||| (g2 <<< 6) =
      g0 * 262144 + g1 * 4096 + g2 * 64 := by
  rw [Nat.shiftLeft_eq, Nat.shiftLeft_eq, Nat.shiftLeft_eq,
    lor_eq_add 18 (g0 * 2 ^ 18) (g1 * 2 ^ 12) (by omega) (by omega),
    lor_eq_add 12 (g0 * 2 ^ 18 + g1 * 2 ^ 12) (g2 * 2 ^ 6) (by omega) (by omega)]

theorem recombine4 (g0 g1 g2 g3 : Nat) (h1 : g1 < 64) (h2 : g2 < 64) (h3 : g3 < 64) :
    (g0 <<< 18) ||| (g1 <<< 12) ||| (g2 <<< 6) ||| g3 =
      g0 * 262144 + g1 * 4096 + g2 * 64 + g3 := by
  rw [Nat.shiftLeft_eq, Nat.shiftLeft_eq, Nat.shiftLeft_eq,
    lor_eq_add 18 (g0 * 2 ^ 18) (g1 * 2 ^ 12) (by omega) (by omega),
    lor_eq_add 12 (g0 * 2 ^ 18 + g1 * 2 ^ 12) (g2 * 2 ^ 6) (by omega) (by omega),
    lor_eq_add 6 (g0 * 2 ^ 18 + g1 * 2 ^ 12 + g2 * 2 ^ 6) g3 (by omega) (by omega)]

theorem combineBytes3 (b0 b1 b2 : Nat) (h1 : b1 < 256) (h2 : b2 < 256) :
    (b0 <<< 16) ||| (b1 <<< 8) ||| b2 = b0 * 65536 + b1 * 256 + b2 := by
  rw [Nat.shiftLeft_eq, Nat.shiftLeft_eq,
    lor_eq_add 16 (b0 * 2 ^ 16) (b1 * 2 ^ 8) (by omega) (by omega),
    lor_eq_add 8 (b0 * 2 ^ 16 + b1 * 2 ^ 8) b2 (by omega) (by omega)]

theorem combineBytes2 (b0 b1 : Nat) (h1 : b1 < 256) :
    (b0 <<< 16) ||| (b1 <<< 8) = b0 * 65536 + b1 * 256 := by
  rw [Nat.shiftLeft_eq, Nat.shiftLeft_eq,
    lor_eq_add 16 (b0 * 2 ^ 16) (b1 * 2 ^ 8) (by omega) (by omega)]

/-- Core byte-codec round trip at the level of 6-bit groups. -/
theorem base64_decodeAux_encode {alph : List Char} (hlen : alph.length = 64)
    (hnd : alph.Nodup) :
    ∀ bytes : List Nat, (∀ b ∈ bytes, b < 256) →
      base64DecodeAux (createLookupMap alph)
        ((base64EncodeGroups bytes).map fun v => alph.getD v ' ') = bytes := by
  have hl : ∀ g : Nat, g < 64 →
      createLookupMap alph (alph.getD g ' ') = some g := by
    intro g hg
    exact createLookupMap_getD hnd (by omega)
  intro bytes
  induction bytes using base64EncodeGroups.induct with
  | case1 => intro _; simp [base64EncodeGroups, base64DecodeAux]
  | case2 b0 =>
    intro hb
    have h0 : b0 < 256 := hb b0 (by simp)
    simp only [base64EncodeGroups, List.map_cons, List.map_nil, base64DecodeAux,
      hl _ (band63_lt _), Option.getD_some]
    rw [recombine2 _ _ (band63_lt _)]
    simp only [Nat.shiftLeft_eq, Nat.shiftRight_eq_div_pow, and63, and255,
      List.cons.injEq, and_true]
    omega
  | case3 b0 b1 =>
    intro hb
    have h0 : b0 < 256 := hb b0 (by simp)
    have h1 : b1 < 256 := hb b1 (by simp)
    simp only [base64EncodeGroups, List.map_cons, List.map_nil, base64DecodeAux,
      hl _ (band63_lt _), Option.getD_some]
    rw [recombine3 _ _ _ (band63_lt _) (band63_lt _), combineBytes2 _ _ h1]
    simp only [Nat.shiftLeft_eq, Nat.shiftRight_eq_div_pow, and63, and255,
      List.cons.injEq, and_true]
    constructor <;> omega
  | case4 b0 b1 b2 rest ih =>
    intro hb
    have h0 : b0 < 256 := hb b0 (by simp)
    have h1 : b1 < 256 := hb b1 (by simp)
    have h2 : b2 < 256 := hb b2 (by simp)
    have hrest : ∀ b ∈ rest, b < 256 := fun b hbr => hb b (by simp [hbr])
    simp only [base64EncodeGroups, List.map_cons, base64DecodeAux,
      hl _ (band63_lt _), Option.getD_some]
    rw [recombine4 _ _ _ _ (band63_lt _) (band63_lt _) (band63_lt _),
      combineBytes3 _ _ _ h1 h2, ih hrest]
    simp only [Nat.shiftLeft_eq, Nat.shiftRight_eq_div_pow, and63, and255,
      List.cons.injEq, and_true]
    refine ⟨?_, ?_, ?_⟩ <;> omega

/-- Byte-codec round trip through the full `base64Encode`/`base64Decode`
pair, for every validated alphabet. -/
theorem base64_decode_encode {alph : List Char} (hv : validAlphabet alph)
    (bytes : List Nat) (hb : ∀ b ∈ bytes, b < 256) :
    base64Decode alph (base64Encode alph bytes) = bytes := by
  obtain ⟨hlen, hnd, hsafe⟩ := hv
  have hstrip : stripTrailingEq (base64Encode alph bytes) = base64Encode alph bytes := by
    apply stripTrailingEq_of_no_eq
    intro c hc
    have hmem := base64Encode_mem_alph hlen bytes c hc
    have := hsafe c hmem
    intro he
    rw [beq_iff_eq.mp he] at this
    simp [urlSafeChar] at this
  unfold base64Decode
  rw [hstrip]
  exact base64_decodeAux_encode hlen hnd bytes hb

theorem floatToBytes_lt (w : Nat) : ∀ b ∈ floatToBytes w, b < 256 := by
  intro b hb
  simp only [floatToBytes, List.mem_cons, List.not_mem_nil, or_false] at hb
  rcases hb with rfl | rfl | rfl | rfl | rfl | rfl | rfl | rfl <;>
    (rw [and255]; omega)

theorem bytesToFloat_floatToBytes (w : Nat) (hw : w < 2 ^ 64) :
    bytesToFloat (floatToBytes w) = some w := by
  unfold bytesToFloat floatToBytes
  norm_num [and255, Nat.shiftRight_eq_div_pow]
  omega

/-- C6: for every alphabet accepted by validation, the byte-oriented codec
round-trips every byte sequence, and the empty sequence maps to the empty
string and back. -/
theorem c6_alphabet_bijection {alph : List Char} (hv : validAlphabet alph)
    (bytes : List Nat) (hb : ∀ b ∈ bytes, b < 256) :
    base64Decode alph (base64Encode alph bytes) = bytes ∧
    base64Encode alph [] = [] ∧ base64Decode alph [] = [] :=
  ⟨base64_decode_encode hv bytes hb, rfl, rfl⟩

/-- Witness for C6 at the `rfc4648` preset and the bytes of `"ABC"`. -/
theorem c6_alphabet_bijection_witness :
    validAlphabet rfc4648 ∧
    base64Decode rfc4648 (base64Encode rfc4648 [65, 66, 67]) = [65, 66, 67] :=
  ⟨by decide, (c6_alphabet_bijection (by decide) [65, 66, 67] (by decide)).1⟩

/-- C1 counterexample: with default `+0`, the finite double `-0`
(pattern `2 ^ 63`) does not survive the lossless round trip bit-for-bit:
`-0 === 0` makes `encode` return the absent sentinel and `decode` returns
`+0`. -/
theorem c1_lossless_counterexample :
    finitePat (2 ^ 63) ∧
    losslessDecode rfc4648 0 (losslessEncode rfc4648 0 (2 ^ 63)) ≠ 2 ^ 63 := by
  constructor
  · constructor
    · norm_num
    · decide
  · decide

/-- C1 (amended): for every finite pattern `w` and default `d`, the lossless
converter decodes back to `w` bit-for-bit whenever `w` is not
JavaScript-`===` the default; when it is, the round trip returns the
default itself (which differs from `w` exactly in the `+0` and `-0` case of
the counterexample). -/
theorem c1_lossless_roundtrip (d w : Nat) (hw : finitePat w) :
    losslessDecode rfc4648 d (losslessEncode rfc4648 d w) =
      if jsEq w d then d else w := by
  unfold losslessEncode
  by_cases h : jsEq w d
  · simp [h, losslessDecode]
  · simp only [h, Bool.false_eq_true, if_false]
    simp only [losslessDecode]
    have hne : base64Encode rfc4648 (floatToBytes w) ≠ [] := by
      simp [base64Encode, base64EncodeGroups, floatToBytes]
    rw [if_neg hne,
      base64_decode_encode (by decide) (floatToBytes w) (floatToBytes_lt w),
      bytesToFloat_floatToBytes w hw.1]

/-- Witness for C1 at default `0` and `w` the pattern of `Math.PI`. -/
theorem c1_lossless_roundtrip_witness :
    finitePat 0x400921FB54442D18 ∧
    losslessDecode rfc4648 0 (losslessEncode rfc4648 0 0x400921FB54442D18) =
      if jsEq 0x400921FB54442D18 0 then 0 else 0x400921FB54442D18 :=
  ⟨⟨by norm_num, by decide⟩,
    c1_lossless_roundtrip 0 0x400921FB54442D18 ⟨by norm_num, by decide⟩⟩

/-! ## Proof machinery: order preservation of the `sortable` alphabet -/

theorem radixVal_foldl_init (B : Nat) (l : List Nat) :
    ∀ a : Nat, l.foldl (fun acc d => acc * B + d) a = a * B ^ l.length + radixVal B l := by
  induction l with
  | nil => intro a; simp [radixVal]
  | cons x xs ih =>
    intro a
    simp only [List.foldl_cons, radixVal, Nat.zero_mul, Nat.zero_add] at ih ⊢
    rw [ih (a * B + x), ih x, List.length_cons]
    ring

theorem radixVal_cons (B x : Nat) (xs : List Nat) :
    radixVal B (x :: xs) = x * B ^ xs.length + radixVal B xs := by
  simp only [radixVal, List.foldl_cons, Nat.zero_mul, Nat.zero_add]
  exact radixVal_foldl_init B xs x

theorem radixVal_append (B : Nat) (xs ys : List Nat) :
    radixVal B (xs ++ ys) = radixVal B xs * B ^ ys.length + radixVal B ys := by
  simp only [radixVal, List.foldl_append]
  exact radixVal_foldl_init B ys _

theorem radixVal_lt (B : Nat) (hB : 1 ≤ B) :
    ∀ l : List Nat, (∀ d ∈ l, d < B) → radixVal B l < B ^ l.length := by
  intro l
  induction l with
  | nil => intro _; simp [radixVal]
  | cons x xs ih =>
    intro h
    have hx : x < B := h x (by simp)
    have hxs := ih fun d hd => h d (by simp [hd])
    rw [radixVal_cons, List.length_cons]
    calc x * B ^ xs.length + radixVal B xs < x * B ^ xs.length + B ^ xs.length := by omega
    _ = (x + 1) * B ^ xs.length := by ring
    _ ≤ B * B ^ xs.length := Nat.mul_le_mul_right _ (by omega)
    _ = B ^ (xs.length + 1) := by ring

theorem lex_cons_iff_general {α : Type} {r : α → α → Prop} {d e : α}
    {ds es : List α} :
    List.Lex r (d :: ds) (e :: es) ↔ r d e ∨ (d = e ∧ List.Lex r ds es) := by
  constructor
  · intro h
    cases h with
    | cons h => exact Or.inr ⟨rfl, h⟩
    | rel h => exact Or.inl h
  · rintro (h | ⟨rfl, h⟩)
    · exact List.Lex.rel h
    · exact List.Lex.cons h

theorem lex_iff_radixVal {B : Nat} :
    ∀ {ds es : List Nat}, ds.length = es.length →
      (∀ d ∈ ds, d < B) → (∀ e ∈ es, e < B) →
      (List.Lex (· < ·) ds es ↔ radixVal B ds < radixVal B es) := by
  intro ds
  induction ds with
  | nil =>
    intro es hlen _ _
    have : es = [] := List.eq_nil_of_length_eq_zero (by simpa using hlen.symm)
    subst this
    simp [radixVal]
  | cons d ds ih =>
    intro es hlen hd he
    rcases es with _ | ⟨e, es⟩
    · simp at hlen
    have hL : ds.length = es.length := by simpa using hlen
    have hdB : d < B := hd d (by simp)
    have heB : e < B := he e (by simp)
    have hds : ∀ x ∈ ds, x < B := fun x hx => hd x (by simp [hx])
    have hes : ∀ x ∈ es, x < B := fun x hx => he x (by simp [hx])
    have hB : 1 ≤ B := by omega
    have hv : radixVal B ds < B ^ es.length := hL ▸ radixVal_lt B hB ds hds
    have hv' : radixVal B es < B ^ es.length := radixVal_lt B hB es hes
    rw [lex_cons_iff_general, radixVal_cons, radixVal_cons, hL]
    rcases Nat.lt_trichotomy d e with h | h | h
    · have h1 : (d + 1) * B ^ es.length ≤ e * B ^ es.length :=
        Nat.mul_le_mul_right _ (by omega)
      have h2 : (d + 1) * B ^ es.length = d * B ^ es.length + B ^ es.length := by ring
      constructor
      · intro _; omega
      · intro _; exact Or.inl h
    · subst h
      rw [ih hL hds hes]
      constructor
      · rintro (hc | ⟨_, hc⟩)
        · omega
        · omega
      · intro hc
        exact Or.inr ⟨rfl, by omega⟩
    · have h1 : (e + 1) * B ^ es.length ≤ d * B ^ es.length :=
        Nat.mul_le_mul_right _ (by omega)
      have h2 : (e + 1) * B ^ es.length = e * B ^ es.length + B ^ es.length := by ring
      constructor
      · rintro (hc | ⟨hc, _⟩) <;> omega
      · intro hc; omega

theorem lex_map_iff {f : Nat → Char}
    (hmono : ∀ i < 64, ∀ j < 64, (i < j ↔ f i < f j)) :
    ∀ {ds es : List Nat}, (∀ d ∈ ds, d < 64) → (∀ e ∈ es, e < 64) →
      (List.Lex (· < ·) (ds.map f) (es.map f) ↔ List.Lex (· < ·) ds es) := by
  intro ds
  induction ds with
  | nil =>
    intro es _ _
    rcases es with _ | ⟨e, es⟩
    · simp
    · exact iff_of_true List.Lex.nil List.Lex.nil
  | cons d ds ih =>
    intro es hd he
    rcases es with _ | ⟨e, es⟩
    · simp
    have hdB : d < 64 := hd d (by simp)
    have heB : e < 64 := he e (by simp)
    have hds : ∀ x ∈ ds, x < 64 := fun x hx => hd x (by simp [hx])
    have hes : ∀ x ∈ es, x < 64 := fun x hx => he x (by simp [hx])
    have hlt : d < e ↔ f d < f e := hmono d hdB e heB
    have heq : f d = f e ↔ d = e := by
      constructor
      · intro hfe
        rcases Nat.lt_trichotomy d e with h | h | h
        · exact absurd (hfe ▸ (hlt.mp h)) (lt_irrefl _)
        · exact h
        · exact absurd (hfe ▸ ((hmono e heB d hdB).mp h)) (lt_irrefl _)
      · intro h; rw [h]
    simp only [List.map_cons]
    rw [lex_cons_iff_general, lex_cons_iff_general]
    rw [ih hds hes, ← hlt, heq]

/-- The `sortable` preset is strictly increasing in character codes. -/
theorem sortable_strictMono :
    ∀ i < 64, ∀ j < 64, (i < j ↔ (sortable.getD i ' ') < (sortable.getD j ' ')) := by
  decide

theorem encodeGroups_length (bytes : List Nat) :
    (base64EncodeGroups bytes).length = (4 * bytes.length + 2) / 3 := by
  induction bytes using base64EncodeGroups.induct with
  | case1 => simp [base64EncodeGroups]
  | case2 b0 => simp [base64EncodeGroups]
  | case3 b0 b1 => simp [base64EncodeGroups]
  | case4 b0 b1 b2 rest ih =>
    simp only [base64EncodeGroups, List.length_cons, ih, List.length_cons]
    omega

/-- The 6-bit groups of a byte sequence, read as one base-64 number, are the
big-endian value of the bytes shifted left by the zero padding that fills
the final group. -/
theorem radixVal_encodeGroups (bytes : List Nat) (hb : ∀ b ∈ bytes, b < 256) :
    radixVal 64 (base64EncodeGroups bytes) =
      beNat bytes * 2 ^ (6 * (base64EncodeGroups bytes).length - 8 * bytes.length) := by
  induction bytes using base64EncodeGroups.induct with
  | case1 => simp [base64EncodeGroups, radixVal, beNat]
  | case2 b0 =>
    have h0 : b0 < 256 := hb b0 (by simp)
    simp only [base64EncodeGroups, radixVal, List.foldl, beNat, List.length_cons,
      List.length_nil, List.length_singleton]
    simp only [Nat.shiftLeft_eq, Nat.shiftRight_eq_div_pow, and63]
    norm_num
    omega
  | case3 b0 b1 =>
    have h0 : b0 < 256 := hb b0 (by simp)
    have h1 : b1 < 256 := hb b1 (by simp)
    simp only [base64EncodeGroups, combineBytes2 _ _ h1, radixVal, List.foldl, beNat,
      List.length_cons, List.length_nil, List.length_singleton]
    simp only [Nat.shiftLeft_eq, Nat.shiftRight_eq_div_pow, and63]
    norm_num
    omega
  | case4 b0 b1 b2 rest ih =>
    have h0 : b0 < 256 := hb b0 (by simp)
    have h1 : b1 < 256 := hb b1 (by simp)
    have h2 : b2 < 256 := hb b2 (by simp)
    have hrest : ∀ b ∈ rest, b < 256 := fun b hbr => hb b (by simp [hbr])
    have hihv := ih hrest
    set R := base64EncodeGroups rest with hR
    set L := rest.length with hLdef
    have hlenR : R.length = (4 * L + 3) / 3 - 1 + 1 ∨ R.length = (4 * L + 2) / 3 := by
      right; rw [hR, encodeGroups_length]
    have hpad : 8 * L ≤ 6 * R.length := by
      rw [hR, encodeGroups_length]; omega
    have hglen_tot : (base64EncodeGroups (b0 :: b1 :: b2 :: rest)).length = 4 + R.length := by
      rw [encodeGroups_length, hR, encodeGroups_length]
      simp only [List.length_cons]
      omega
    have hlen_tot : (b0 :: b1 :: b2 :: rest).length = 3 + L := by
      simp only [List.length_cons]
      omega
    rw [hglen_tot, hlen_tot,
      show 6 * (4 + R.length) - 8 * (3 + L) = 6 * R.length - 8 * L from by omega]
    simp only [base64EncodeGroups, combineBytes3 _ _ _ h1 h2]
    rw [show ((b0 * 65536 + b1 * 256 + b2) >>> 18 &&& 63) ::
        ((b0 * 65536 + b1 * 256 + b2) >>> 12 &&& 63) ::
        ((b0 * 65536 + b1 * 256 + b2) >>> 6 &&& 63) ::
        ((b0 * 65536 + b1 * 256 + b2) &&& 63) :: R =
        [((b0 * 65536 + b1 * 256 + b2) >>> 18 &&& 63),
         ((b0 * 65536 + b1 * 256 + b2) >>> 12 &&& 63),
         ((b0 * 65536 + b1 * 256 + b2) >>> 6 &&& 63),
         ((b0 * 65536 + b1 * 256 + b2) &&& 63)] ++ R from rfl]
    rw [radixVal_append]
    have hchunk : radixVal 64
        [((b0 * 65536 + b1 * 256 + b2) >>> 18 &&& 63),
         ((b0 * 65536 + b1 * 256 + b2) >>> 12 &&& 63),
         ((b0 * 65536 + b1 * 256 + b2) >>> 6 &&& 63),
         ((b0 * 65536 + b1 * 256 + b2) &&& 63)] = b0 * 65536 + b1 * 256 + b2 := by
      simp only [radixVal, List.foldl, Nat.shiftRight_eq_div_pow, and63]
      norm_num
      omega
    rw [hchunk, hihv]
    have hbe : beNat (b0 :: b1 :: b2 :: rest) =
        (b0 * 65536 + b1 * 256 + b2) * 256 ^ L + beNat rest := by
      show radixVal 256 (b0 :: b1 :: b2 :: rest) = _
      rw [radixVal_cons, radixVal_cons, radixVal_cons]
      have h256 : (radixVal 256 rest : Nat) = beNat rest := rfl
      rw [h256]
      simp only [List.length_cons]
      ring
    rw [hbe]
    have hpow : (64 : Nat) ^ R.length = 256 ^ L * 2 ^ (6 * R.length - 8 * L) := by
      have h64 : (64 : Nat) ^ R.length = 2 ^ (6 * R.length) := by
        rw [show (64 : Nat) = 2 ^ 6 from rfl, ← pow_mul]
      have h256 : (256 : Nat) ^ L = 2 ^ (8 * L) := by
        rw [show (256 : Nat) = 2 ^ 8 from rfl, ← pow_mul]
      rw [h64, h256, ← pow_add]
      congr 1
      omega
    rw [hpow]
    ring

/-- C7: with the `sortable` alphabet, encodings of equal-length byte
sequences compare lexicographically (by character code) exactly as the
sequences compare numerically as big-endian unsigned integers. -/
theorem c7_sortable_order {a b : List Nat} (hlen : a.length = b.length)
    (ha : ∀ x ∈ a, x < 256) (hb : ∀ x ∈ b, x < 256) :
    beNat a < beNat b ↔
      List.Lex (· < ·) (base64Encode sortable a) (base64Encode sortable b) := by
  have hga := encodeGroups_lt a
  have hgb := encodeGroups_lt b
  have hglen : (base64EncodeGroups a).length = (base64EncodeGroups b).length := by
    rw [encodeGroups_length, encodeGroups_length, hlen]
  unfold base64Encode
  rw [lex_map_iff sortable_strictMono hga hgb,
    lex_iff_radixVal hglen hga hgb,
    radixVal_encodeGroups a ha, radixVal_encodeGroups b hb, hglen, hlen]
  constructor
  · intro h
    exact Nat.mul_lt_mul_of_lt_of_le h (le_refl _) (by positivity)
  · intro h
    by_contra hc
    push_neg at hc
    exact absurd (Nat.mul_le_mul_right _ hc) (not_le.mpr h)

/-- Witness for C7 at `a = [1, 2]`, `b = [1, 3]`. -/
theorem c7_sortable_order_witness :
    beNat [1, 2] < beNat [1, 3] ∧
      List.Lex (· < ·) (base64Encode sortable [1, 2]) (base64Encode sortable [1, 3]) := by
  have h := c7_sortable_order (a := [1, 2]) (b := [1, 3]) rfl (by decide) (by decide)
  exact ⟨by decide, h.mp (by decide)⟩

/-! ## Proof machinery: bit-level view of the `BitBuffer` -/

theorem testBit_bitsVal (f : Nat → Bool) (start : Nat) :
    ∀ w k, (bitsVal f start w).testBit k = (decide (k < w) && f (start + (w - 1 - k))) := by
  intro w
  induction w with
  | zero => intro k; simp [bitsVal]
  | succ w ih =>
    intro k
    have hsplit : bitsVal f start (w + 1) = 2 * bitsVal f start w + (f (start + w)).toNat := by
      simp [bitsVal]; ring
    rcases k with _ | k
    · rw [hsplit, Nat.testBit_zero]
      rcases hf : f (start + w) <;> simp [hf, Nat.mul_comm, Nat.mul_add_mod]
    · rw [hsplit, Nat.testBit_add_one]
      have hdiv : (2 * bitsVal f start w + (f (start + w)).toNat) / 2 = bitsVal f start w := by
        rcases hf : f (start + w) <;> simp [hf] <;> omega
      rw [hdiv, ih k]
      by_cases hk : k < w
      · have hk1 : k + 1 < w + 1 := by omega
        simp only [decide_eq_true hk, decide_eq_true hk1, Bool.true_and]
        congr 2
        omega
      · have hk1 : ¬ (k + 1 < w + 1) := by omega
        simp [hk, hk1]

theorem bitsVal_lt (f : Nat → Bool) (start w : Nat) : bitsVal f start w < 2 ^ w := by
  induction w with
  | zero => simp [bitsVal]
  | succ w ih =>
    have : (f (start + w)).toNat ≤ 1 := Bool.toNat_le _
    simp only [bitsVal, pow_succ]
    omega

theorem bitsVal_eq_of_testBit (f : Nat → Bool) (start w m : Nat) (hm : m < 2 ^ w)
    (h : ∀ j, j < w → f (start + j) = m.testBit (w - 1 - j)) :
    bitsVal f start w = m := by
  apply Nat.eq_of_testBit_eq
  intro k
  rw [testBit_bitsVal]
  by_cases hk : k < w
  · have hj : w - 1 - k < w := by omega
    rw [h (w - 1 - k) hj]
    simp only [decide_eq_true hk, Bool.true_and]
    congr 1
    omega
  · have hwk : w ≤ k := by omega
    have hmk : m < 2 ^ k := lt_of_lt_of_le hm (Nat.pow_le_pow_right (by norm_num) hwk)
    simp [hk, Nat.testBit_lt_two_pow hmk]

theorem bitsVal_zero (f : Nat → Bool) (start w : Nat)
    (h : ∀ j, j < w → f (start + j) = false) : bitsVal f start w = 0 :=
  bitsVal_eq_of_testBit f start w 0 (Nat.pos_pow_of_pos _ (by norm_num))
    (by intro j hj; simp [h j hj])

theorem bitsVal_split (f : Nat → Bool) (start w1 : Nat) :
    ∀ w2, bitsVal f start (w1 + w2) = bitsVal f start w1 * 2 ^ w2 + bitsVal f (start + w1) w2 := by
  intro w2
  induction w2 with
  | zero => simp [bitsVal]
  | succ w2 ih =>
    have h1 : w1 + (w2 + 1) = (w1 + w2) + 1 := by omega
    rw [h1]
    simp only [bitsVal, ih]
    have h2 : start + (w1 + w2) = start + w1 + w2 := by omega
    rw [h2, pow_succ]
    ring

theorem bitsVal_congr {f g : Nat → Bool} {c c' : Nat} (w : Nat)
    (h : ∀ j, j < w → f (c + j) = g (c' + j)) :
    bitsVal f c w = bitsVal g c' w := by
  induction w with
  | zero => simp [bitsVal]
  | succ w ih =>
    simp only [bitsVal]
    rw [ih fun j hj => h j (by omega), h w (by omega)]

theorem getD_setExtend (buf : List Nat) (i v j : Nat) :
    (setExtend buf i v).getD j 0 = if j = i then v else buf.getD j 0 := by
  unfold setExtend
  by_cases hi : i < buf.length
  · simp only [hi, if_true]
    by_cases hj : j = i
    · subst hj
      simp [List.getD_eq_getElem?_getD, List.getElem?_set_self hi]
    · simp [List.getD_eq_getElem?_getD, List.getElem?_set_ne (Ne.symm hj), hj]
  · simp only [hi, if_false]
    push_neg at hi
    have hlen2 : (buf ++ List.replicate (i - buf.length) 0).length = i := by
      simp
      omega
    by_cases hj : j = i
    · subst hj
      rw [if_pos rfl, List.getD_eq_getElem?_getD,
        List.getElem?_append_right (by rw [hlen2]),
        hlen2]
      simp
    · rw [if_neg hj]
      rcases Nat.lt_or_ge j buf.length with hjb | hjb
      · rw [List.getD_eq_getElem?_getD,
          List.getElem?_append_left (by rw [hlen2]; omega),
          List.getElem?_append_left hjb,
          List.getD_eq_getElem?_getD]
      · have hbufj : buf.getD j 0 = 0 := by
          rw [List.getD_eq_getElem?_getD, List.getElem?_eq_none (by omega)]
          rfl
        rw [hbufj]
        rcases Nat.lt_or_ge j i with hji | hji
        · rw [List.getD_eq_getElem?_getD,
            List.getElem?_append_left (by rw [hlen2]; omega),
            List.getElem?_append_right hjb]
          simp only [List.getElem?_replicate]
          rw [if_pos (by omega)]
          rfl
        · have h1 : ([v] : List Nat).length ≤ j - i := by
            simp only [List.length_singleton]
            omega
          rw [List.getD_eq_getElem?_getD,
            List.getElem?_append_right (by rw [hlen2]; omega), hlen2,
            List.getElem?_eq_none h1]
          rfl

theorem min_pos {a b : Nat} (ha : 1 ≤ a) (hb : 1 ≤ b) : 1 ≤ min a b := by omega

/-- The value read by one `decodeInt`/`decodeBigInt` loop: the accumulator
shifted up by `numBits` plus the `numBits` buffer bits under the cursor;
the cursor advances by `numBits` bits. -/
theorem decodeBitsAux_spec (numBits : Nat) :
    ∀ (buf : List Nat) (byteOffset bitOffset n : Nat), bitOffset < 8 →
      decodeBitsAux buf byteOffset bitOffset n numBits =
        (n * 2 ^ numBits + bitsVal (bitAt buf) (8 * byteOffset + bitOffset) numBits,
          (8 * byteOffset + bitOffset + numBits) / 8,
          (8 * byteOffset + bitOffset + numBits) % 8) := by
  induction numBits using Nat.strong_induction_on with
  | _ w ih =>
    intro buf byteOffset bitOffset n hbit
    by_cases hw : w = 0
    · subst hw
      unfold decodeBitsAux
      rw [if_pos (Or.inl rfl)]
      simp only [bitsVal, pow_zero, Nat.mul_one, Nat.add_zero, Prod.mk.injEq]
      refine ⟨trivial, by omega, by omega⟩
    · unfold decodeBitsAux
      rw [if_neg (by omega)]
      dsimp only
      have ht1 : 1 ≤ min w (8 - bitOffset) := min_pos (by omega) (by omega)
      have ht8 : bitOffset + min w (8 - bitOffset) ≤ 8 := by omega
      have htw : min w (8 - bitOffset) ≤ w := by omega
      set t := min w (8 - bitOffset) with ht
      set B := buf.getD byteOffset 0 with hBdef
      set c := 8 * byteOffset + bitOffset with hc
      set bII := 8 - bitOffset - t with hbII
      set bits := (B &&& (((1 <<< t) - 1) <<< bII)) >>> bII with hbits
      -- the bits read in this iteration
      have hmaskbit : ∀ j, ((((1 <<< t) - 1) <<< bII)).testBit j =
          (decide (bII ≤ j) && decide (j - bII < t)) := by
        intro j
        rw [show (1 <<< t) = 2 ^ t by rw [Nat.shiftLeft_eq, Nat.one_mul]]
        simp [Nat.testBit_shiftLeft, Nat.testBit_two_pow_sub_one, ge_iff_le]
      have hbitsTest : ∀ j, bits.testBit j = (decide (j < t) && B.testBit (bII + j)) := by
        intro j
        rw [hbits, Nat.testBit_shiftRight, Nat.testBit_and, hmaskbit (bII + j)]
        by_cases hj : j < t
        · have h2 : bII ≤ bII + j := Nat.le_add_right _ _
          have h3 : bII + j - bII < t := by omega
          simp [hj, h2, h3, Bool.and_comm]
        · have h3 : ¬ (bII + j - bII < t) := by omega
          simp [hj, h3]
      have hbits_lt : bits < 2 ^ t := by
        have h1 : B &&& (((1 <<< t) - 1) <<< bII) ≤ ((1 <<< t) - 1) <<< bII :=
          Nat.and_le_right
        have h2 : bits ≤ (((1 <<< t) - 1) <<< bII) >>> bII := by
          rw [hbits, Nat.shiftRight_eq_div_pow, Nat.shiftRight_eq_div_pow]
          exact Nat.div_le_div_right h1
        have h3 : (((1 <<< t) - 1) <<< bII) >>> bII = (1 <<< t) - 1 := by
          rw [Nat.shiftLeft_eq, Nat.shiftRight_eq_div_pow]
          exact Nat.mul_div_cancel _ (Nat.pos_pow_of_pos _ (by norm_num))
        have h4 : (1 <<< t) - 1 = 2 ^ t - 1 := by rw [Nat.shiftLeft_eq, Nat.one_mul]
        have h5 : 1 ≤ 2 ^ t := Nat.one_le_two_pow
        omega
      have hbitsVal : bits = bitsVal (bitAt buf) c t := by
        symm
        apply bitsVal_eq_of_testBit _ _ _ _ hbits_lt
        intro j hj
        have hcj8 : (c + j) / 8 = byteOffset := by omega
        have hcj8' : (c + j) % 8 = bitOffset + j := by omega
        rw [bitAt, hcj8, hcj8', ← hBdef, hbitsTest (t - 1 - j)]
        have hlt : t - 1 - j < t := by omega
        simp only [decide_eq_true hlt, Bool.true_and]
        congr 1
        omega
      have hn' : (n <<< t) ||| bits = n * 2 ^ t + bits := by
        rw [Nat.shiftLeft_eq]
        exact lor_eq_add t _ _ (Nat.mul_mod_left _ _) hbits_lt
      have hsplitw : bitsVal (bitAt buf) c w =
          bitsVal (bitAt buf) c t * 2 ^ (w - t) + bitsVal (bitAt buf) (c + t) (w - t) := by
        have h := bitsVal_split (bitAt buf) c t (w - t)
        rw [show t + (w - t) = w from by omega] at h
        exact h
      have hpow : (2 : Nat) ^ t * 2 ^ (w - t) = 2 ^ w := by
        rw [← pow_add]
        congr 1
        omega
      by_cases hfull : bitOffset + t = 8
      · rw [if_pos hfull,
          ih (w - t) (by omega) buf (byteOffset + 1) 0 ((n <<< t) ||| bits) (by norm_num)]
        simp only [Prod.mk.injEq]
        refine ⟨?_, by omega, by omega⟩
        rw [hn', hbitsVal,
          show 8 * (byteOffset + 1) + 0 = c + t from by omega,
          hsplitw, ← hpow]
        ring
      · rw [if_neg hfull,
          ih (w - t) (by omega) buf byteOffset (bitOffset + t) ((n <<< t) ||| bits) (by omega)]
        simp only [Prod.mk.injEq]
        refine ⟨?_, by omega, by omega⟩
        rw [hn', hbitsVal,
          show 8 * byteOffset + (bitOffset + t) = c + t from by omega,
          hsplitw, ← hpow]
        ring

theorem getD_append_zero (buf : List Nat) (j : Nat) :
    (buf ++ [0]).getD j 0 = buf.getD j 0 := by
  rcases Nat.lt_trichotomy j buf.length with h | h | h
  · rw [List.getD_eq_getElem?_getD, List.getElem?_append_left h,
      ← List.getD_eq_getElem?_getD]
  · rw [List.getD_eq_getElem?_getD, List.getElem?_append_right (Nat.le_of_eq h.symm),
      List.getD_eq_getElem?_getD, List.getElem?_eq_none (Nat.le_of_eq h.symm)]
    subst h
    simp
  · have h1 : buf.length ≤ j := by omega
    have h2 : ([0] : List Nat).length ≤ j - buf.length := by
      simp only [List.length_singleton]
      omega
    simp only [List.getD_eq_getElem?_getD]
    rw [List.getElem?_append_right h1, List.getElem?_eq_none h2,
      List.getElem?_eq_none h1]

/-- Effect of one `encodeInt`/`encodeBigInt` loop: the cursor advances past
the `numBits` written bits, and every buffer bit becomes the old bit OR-ed
with the matching bit of the low `numBits` bits of `n` (MSB first) when it
lies under the written window, old bits elsewhere: writing merges with
`|=`, it never clears. -/
theorem encodeBitsAux_spec (numBits : Nat) :
    ∀ (buf : List Nat) (byteOffset bitOffset n : Nat), bitOffset < 8 →
      (encodeBitsAux buf byteOffset bitOffset n numBits).2.1 =
          (8 * byteOffset + bitOffset + numBits) / 8 ∧
      (encodeBitsAux buf byteOffset bitOffset n numBits).2.2 =
          (8 * byteOffset + bitOffset + numBits) % 8 ∧
      ∀ p, bitAt (encodeBitsAux buf byteOffset bitOffset n numBits).1 p =
        (bitAt buf p ||
          (decide (8 * byteOffset + bitOffset ≤ p ∧
              p < 8 * byteOffset + bitOffset + numBits) &&
            (n % 2 ^ numBits).testBit
              (numBits - 1 - (p - (8 * byteOffset + bitOffset))))) := by
  induction numBits using Nat.strong_induction_on with
  | _ w ih =>
    intro buf byteOffset bitOffset n hbit
    by_cases hw : w = 0
    · subst hw
      unfold encodeBitsAux
      rw [if_pos (Or.inl rfl)]
      refine ⟨by dsimp only; omega, by dsimp only; omega, ?_⟩
      intro p
      have hna : ¬ (8 * byteOffset + bitOffset ≤ p ∧ p < 8 * byteOffset + bitOffset + 0) := by
        omega
      simp [hna]
    · unfold encodeBitsAux
      rw [if_neg (by omega)]
      dsimp only
      have ht1 : 1 ≤ min w (8 - bitOffset) := min_pos (by omega) (by omega)
      have ht8 : bitOffset + min w (8 - bitOffset) ≤ 8 := by omega
      have htw : min w (8 - bitOffset) ≤ w := by omega
      set t := min w (8 - bitOffset) with ht
      set c := 8 * byteOffset + bitOffset with hc
      set buf1 := if buf.length ≤ byteOffset then buf ++ [0] else buf with hbuf1def
      have hbuf1 : ∀ j, buf1.getD j 0 = buf.getD j 0 := by
        intro j
        rw [hbuf1def]
        split
        · exact getD_append_zero buf j
        · rfl
      have hbitAt1 : ∀ p, bitAt buf1 p = bitAt buf p := by
        intro p
        rw [bitAt, bitAt, hbuf1]
      set B := buf1.getD byteOffset 0 with hBdef
      set bLTW := w - t with hbLTW
      set sbw := (n &&& (((1 <<< t) - 1) <<< bLTW)) >>> bLTW with hsbw
      have hmaskbit : ∀ j, ((((1 <<< t) - 1) <<< bLTW)).testBit j =
          (decide (bLTW ≤ j) && decide (j - bLTW < t)) := by
        intro j
        rw [show (1 <<< t) = 2 ^ t by rw [Nat.shiftLeft_eq, Nat.one_mul]]
        simp [Nat.testBit_shiftLeft, Nat.testBit_two_pow_sub_one, ge_iff_le]
      have hsbwTest : ∀ j, sbw.testBit j = (decide (j < t) && n.testBit (bLTW + j)) := by
        intro j
        rw [hsbw, Nat.testBit_shiftRight, Nat.testBit_and, hmaskbit (bLTW + j)]
        by_cases hj : j < t
        · have h2 : bLTW ≤ bLTW + j := Nat.le_add_right _ _
          have h3 : bLTW + j - bLTW < t := by omega
          simp [hj, h2, h3, Bool.and_comm]
        · have h3 : ¬ (bLTW + j - bLTW < t) := by omega
          simp [hj, h3]
      -- the bit view of the byte written in this iteration
      set buf2 := setExtend buf1 byteOffset (B ||| (sbw <<< (8 - bitOffset - t))) with hbuf2
      have hbit2 : ∀ p, bitAt buf2 p =
          (bitAt buf p ||
            (decide (c ≤ p ∧ p < c + t) && n.testBit (w - 1 - (p - c)))) := by
        intro p
        rw [hbuf2, bitAt, getD_setExtend]
        by_cases hp : p / 8 = byteOffset
        · rw [if_pos hp, Nat.testBit_or]
          have hq : p = 8 * byteOffset + p % 8 := by omega
          have hBbit : B.testBit (7 - p % 8) = bitAt buf p := by
            rw [hBdef, hbuf1, bitAt, hp]
          rw [hBbit, Nat.testBit_shiftLeft, hsbwTest]
          congr 1
          by_cases hin : c ≤ p ∧ p < c + t
          · have h1 : 8 - bitOffset - t ≤ 7 - p % 8 := by omega
            have h2 : 7 - p % 8 - (8 - bitOffset - t) < t := by omega
            have h3 : bLTW + (7 - p % 8 - (8 - bitOffset - t)) = w - 1 - (p - c) := by
              rw [hbLTW]
              omega
            simp only [ge_iff_le, decide_eq_true h1, decide_eq_true h2, Bool.true_and, h3,
              decide_eq_true hin, Bool.true_and]
          · -- outside the window: the written bits contribute nothing
            simp only [decide_eq_false hin, Bool.false_and, ge_iff_le]
            by_cases h1 : 8 - bitOffset - t ≤ 7 - p % 8
            · have h2 : ¬ (7 - p % 8 - (8 - bitOffset - t) < t) := by omega
              simp [h2]
            · simp [h1]
        · rw [if_neg hp]
          have hout : ¬ (c ≤ p ∧ p < c + t) := by omega
          rw [← bitAt, hbitAt1]
          simp [hout]
      have hn' : n &&& ((1 <<< bLTW) - 1) = n % 2 ^ bLTW := by
        rw [show (1 <<< bLTW) = 2 ^ bLTW by rw [Nat.shiftLeft_eq, Nat.one_mul]]
        exact Nat.and_pow_two_sub_one_eq_mod n bLTW
      -- merging this iteration with the remaining iterations
      have hseg : ∀ p,
          ((decide (c ≤ p ∧ p < c + t) && n.testBit (w - 1 - (p - c))) ||
            (decide (c + t ≤ p ∧ p < c + t + bLTW) &&
              ((n &&& ((1 <<< bLTW) - 1)) % 2 ^ bLTW).testBit (bLTW - 1 - (p - (c + t))))) =
          (decide (c ≤ p ∧ p < c + w) && (n % 2 ^ w).testBit (w - 1 - (p - c))) := by
        intro p
        rw [hn']
        by_cases hin1 : c ≤ p ∧ p < c + t
        · have hin : c ≤ p ∧ p < c + w := by omega
          have hout2 : ¬ (c + t ≤ p ∧ p < c + t + bLTW) := by omega
          have hidx : w - 1 - (p - c) < w := by omega
          simp only [decide_eq_true hin1, decide_eq_true hin, decide_eq_false hout2,
            Bool.true_and, Bool.false_and, Bool.or_false, Nat.testBit_mod_two_pow,
            decide_eq_true hidx]
        · by_cases hin2 : c + t ≤ p ∧ p < c + t + bLTW
          · have hin : c ≤ p ∧ p < c + w := by omega
            have heq : bLTW - 1 - (p - (c + t)) = w - 1 - (p - c) := by omega
            have hj : w - 1 - (p - c) < bLTW := by omega
            have hidx : w - 1 - (p - c) < w := by omega
            simp only [decide_eq_false hin1, Bool.false_and, Bool.false_or,
              decide_eq_true hin2, Bool.true_and, heq, Nat.testBit_mod_two_pow,
              decide_eq_true hj, decide_eq_true hin, decide_eq_true hidx,
              Bool.true_and]
          · have hout : ¬ (c ≤ p ∧ p < c + w) := by omega
            simp [hin1, hin2, hout]
      by_cases hfull : bitOffset + t = 8
      · rw [if_pos hfull]
        obtain ⟨ihc1, ihc2, ihb⟩ :=
          ih bLTW (by omega) buf2 (byteOffset + 1) 0 (n &&& ((1 <<< bLTW) - 1)) (by norm_num)
        rw [show 8 * (byteOffset + 1) + 0 = c + t from by omega] at ihc1 ihc2 ihb
        refine ⟨?_, ?_, ?_⟩
        · rw [ihc1]
          congr 1
          omega
        · rw [ihc2]
          congr 1
          omega
        · intro p
          rw [ihb p, hbit2 p, Bool.or_assoc, hseg p]
      · rw [if_neg hfull]
        obtain ⟨ihc1, ihc2, ihb⟩ :=
          ih bLTW (by omega) buf2 byteOffset (bitOffset + t) (n &&& ((1 <<< bLTW) - 1))
            (by omega)
        rw [show 8 * byteOffset + (bitOffset + t) = c + t from by omega] at ihc1 ihc2 ihb
        refine ⟨?_, ?_, ?_⟩
        · rw [ihc1]
          congr 1
          omega
        · rw [ihc2]
          congr 1
          omega
        · intro p
          rw [ihb p, hbit2 p, Bool.or_assoc, hseg p]

/-! ## BitBuffer-level wrappers of the loop specifications -/

theorem encodeBigInt_eq_encodeInt : BitBuffer.encodeBigInt = BitBuffer.encodeInt := rfl

theorem decodeBigInt_eq_decodeInt : BitBuffer.decodeBigInt = BitBuffer.decodeInt := rfl

theorem decodeInt_spec (b : BitBuffer) (numBits : Nat) (hbit : b.bitOffset < 8) :
    b.decodeInt numBits =
      (bitsVal (bitAt b.buf) (8 * b.byteOffset + b.bitOffset) numBits,
        { b with byteOffset := (8 * b.byteOffset + b.bitOffset + numBits) / 8,
                 bitOffset := (8 * b.byteOffset + b.bitOffset + numBits) % 8 }) := by
  unfold BitBuffer.decodeInt
  rw [decodeBitsAux_spec numBits b.buf b.byteOffset b.bitOffset 0 hbit]
  simp

theorem encodeInt_spec (b : BitBuffer) (n numBits : Nat) (hbit : b.bitOffset < 8) :
    (b.encodeInt n numBits).byteOffset = (8 * b.byteOffset + b.bitOffset + numBits) / 8 ∧
    (b.encodeInt n numBits).bitOffset = (8 * b.byteOffset + b.bitOffset + numBits) % 8 ∧
    (b.encodeInt n numBits).endBits =
      max b.endBits (8 * b.byteOffset + b.bitOffset + numBits) ∧
    ∀ p, bitAt (b.encodeInt n numBits).buf p =
      (bitAt b.buf p ||
        (decide (8 * b.byteOffset + b.bitOffset ≤ p ∧
            p < 8 * b.byteOffset + b.bitOffset + numBits) &&
          (n % 2 ^ numBits).testBit
            (numBits - 1 - (p - (8 * b.byteOffset + b.bitOffset))))) := by
  obtain ⟨h1, h2, h3⟩ := encodeBitsAux_spec numBits b.buf b.byteOffset b.bitOffset n hbit
  unfold BitBuffer.encodeInt BitBuffer.afterWrite
  dsimp only
  split
  · next hgt =>
    dsimp only [BitBuffer.totalBitOffset] at hgt ⊢
    refine ⟨h1, h2, ?_, h3⟩
    rw [h1, h2] at hgt ⊢
    omega
  · next hle =>
    dsimp only [BitBuffer.totalBitOffset] at hle
    refine ⟨h1, h2, ?_, h3⟩
    rw [h1, h2] at hle
    dsimp only
    omega

theorem seek_zero (b : BitBuffer) : b.seek 0 = { b with byteOffset := 0, bitOffset := 0 } := by
  unfold BitBuffer.seek
  norm_num

theorem bitAt_new (numBytes p : Nat) : bitAt (BitBuffer.new numBytes).buf p = false := by
  unfold BitBuffer.new bitAt
  dsimp only
  have h : (List.replicate numBytes 0).getD (p / 8) 0 = 0 := by
    rw [List.getD_eq_getElem?_getD, List.getElem?_replicate]
    split <;> rfl
  rw [h, Nat.zero_testBit]

/-- C10: `encodeInt` merges rather than overwrites: writing `a`, seeking
back, writing `b` over the same `w`-bit window and reading it back yields
the bitwise OR of `a` and `b`, because each byte is updated with `|=`. -/
theorem c10_encodeInt_merges (w a b : Nat) (hw1 : 1 ≤ w) (hw30 : w ≤ 30)
    (ha : a < 2 ^ w) (hb : b < 2 ^ w) :
    ((((((BitBuffer.new 0).encodeInt a w).seek 0).encodeInt b w).seek 0).decodeInt w).1 =
      a ||| b := by
  obtain ⟨_, _, _, e1bits⟩ := encodeInt_spec (BitBuffer.new 0) a w (by decide)
  have hz : (8 : Nat) * (BitBuffer.new 0).byteOffset + (BitBuffer.new 0).bitOffset = 0 := rfl
  rw [hz] at e1bits
  set e1 := (BitBuffer.new 0).encodeInt a w with he1
  set s1 := e1.seek 0 with hs1
  have hs1buf : s1.buf = e1.buf := rfl
  have hs1bo : s1.byteOffset = 0 := rfl
  have hs1bi : s1.bitOffset = 0 := rfl
  obtain ⟨_, _, _, e2bits⟩ := encodeInt_spec s1 b w (by rw [hs1bi]; norm_num)
  rw [hs1bo, hs1bi, hs1buf] at e2bits
  set e2 := s1.encodeInt b w with he2
  set s2 := e2.seek 0 with hs2
  have hs2buf : s2.buf = e2.buf := rfl
  have hs2bo : s2.byteOffset = 0 := rfl
  have hs2bi : s2.bitOffset = 0 := rfl
  rw [decodeInt_spec s2 w (by rw [hs2bi]; norm_num)]
  dsimp only
  rw [hs2bo, hs2bi, hs2buf]
  apply bitsVal_eq_of_testBit _ _ _ _ (Nat.or_lt_two_pow ha hb)
  intro j hj
  rw [show (8 : Nat) * 0 + 0 + j = j from by omega, e2bits j, e1bits j, bitAt_new]
  have hseg1 : (0 : Nat) ≤ j ∧ j < 0 + w := by omega
  have hseg2 : (8 : Nat) * 0 + 0 ≤ j ∧ j < 8 * 0 + 0 + w := by omega
  simp only [decide_eq_true hseg1, decide_eq_true hseg2, Bool.true_and, Bool.false_or,
    Nat.mod_eq_of_lt ha, Nat.mod_eq_of_lt hb, Nat.testBit_or]
  congr 1 <;> · congr 1; omega

/-- Witness for C10 at `w = 8`, `a = 0xF0`, `b = 0x0F`. -/
theorem c10_encodeInt_merges_witness :
    ((((((BitBuffer.new 0).encodeInt 0xF0 8).seek 0).encodeInt 0x0F 8).seek 0).decodeInt 8).1 =
      0xF0 ||| 0x0F :=
  c10_encodeInt_merges 8 0xF0 0x0F (by norm_num) (by norm_num) (by norm_num) (by norm_num)

/-- C8: with the read cursor at or past the high-water mark `end` of a
buffer whose bits past `end` are all zero (as every buffer produced by the
write API is), `decodeInt` and `decodeBigInt` silently return `0` for any
width. -/
theorem c8_read_past_end (b : BitBuffer) (numBits : Nat)
    (hbit : b.bitOffset < 8)
    (hcur : b.endBits ≤ b.totalBitOffset)
    (hzero : ∀ p, b.endBits ≤ p → bitAt b.buf p = false) :
    (b.decodeInt numBits).1 = 0 ∧ (b.decodeBigInt numBits).1 = 0 := by
  have hval : (b.decodeInt numBits).1 = 0 := by
    rw [decodeInt_spec b numBits hbit]
    dsimp only
    apply bitsVal_zero
    intro j _
    apply hzero
    unfold BitBuffer.totalBitOffset at hcur
    omega
  exact ⟨hval, by rw [decodeBigInt_eq_decodeInt]; exact hval⟩

/-- Witness for C8: a buffer holding eight written bits, cursor seeked to
the end, reading twelve further bits. -/
theorem c8_read_past_end_witness :
    ((((BitBuffer.new 0).encodeInt 0xAB 8).seek 8).decodeInt 12).1 = 0 ∧
    ((((BitBuffer.new 0).encodeInt 0xAB 8).seek 8).decodeBigInt 12).1 = 0 := by
  obtain ⟨_, _, hc3, ebits⟩ := encodeInt_spec (BitBuffer.new 0) 0xAB 8 (by decide)
  have hend : ((BitBuffer.new 0).encodeInt 0xAB 8).endBits = 8 := by
    rw [hc3]
    decide
  have hend2 : (((BitBuffer.new 0).encodeInt 0xAB 8).seek 8).endBits = 8 := hend
  refine c8_read_past_end _ 12 (by decide) ?_ ?_
  · rw [hend2]
    show (8 : Nat) ≤ (8 >>> 3) * 8 + (8 &&& 7)
    decide
  · intro p hp
    rw [hend2] at hp
    show bitAt ((BitBuffer.new 0).encodeInt 0xAB 8).buf p = false
    rw [ebits p, bitAt_new]
    have hout : ¬ (8 * (BitBuffer.new 0).byteOffset + (BitBuffer.new 0).bitOffset ≤ p ∧
        p < 8 * (BitBuffer.new 0).byteOffset + (BitBuffer.new 0).bitOffset + 8) := by
      show ¬ (8 * 0 + 0 ≤ p ∧ p < 8 * 0 + 0 + 8)
      omega
    simp [hout]

theorem decodeCharsLoop_length (alph : List Char) :
    ∀ (count : Nat) (b : BitBuffer),
      (BitBuffer.decodeCharsLoop alph b count).length = count := by
  intro count
  induction count with
  | zero => intro b; rfl
  | succ k ih =>
    intro b
    unfold BitBuffer.decodeCharsLoop
    simp [ih]

/-- C9: `toBase64` emits exactly `⌈end / 6⌉` characters, `end` being the
bits written before the call (cursor at the high-water mark, as after any
sequence of writes); in `Nat` arithmetic `⌈end / 6⌉ = (end + 5) / 6`. -/
theorem c9_toBase64_length (b : BitBuffer) (alph : List Char)
    (hbit : b.bitOffset < 8) (hcur : b.totalBitOffset = b.endBits) :
    (b.toBase64 alph).length = (b.endBits + 5) / 6 := by
  unfold BitBuffer.toBase64
  dsimp only
  by_cases hov : b.endBits % 6 = 0
  · rw [if_neg (by omega)]
    rw [decodeCharsLoop_length]
  · rw [if_pos (by omega)]
    obtain ⟨_, _, hend, _⟩ := encodeInt_spec b 0 (6 - b.endBits % 6) hbit
    rw [decodeCharsLoop_length, hend]
    unfold BitBuffer.totalBitOffset at hcur
    omega

/-- Witness for C9: a buffer with exactly 78 written bits serializes to 13
characters. -/
theorem c9_toBase64_length_witness :
    (((BitBuffer.new 0).encodeBigInt 0 78).toBase64 rfc4648).length = 13 := by
  rw [encodeBigInt_eq_encodeInt]
  obtain ⟨hc1, hc2, hc3, _⟩ := encodeInt_spec (BitBuffer.new 0) 0 78 (by decide)
  have hbit : ((BitBuffer.new 0).encodeInt 0 78).bitOffset < 8 := by
    rw [hc2]
    decide
  have hcur : ((BitBuffer.new 0).encodeInt 0 78).totalBitOffset =
      ((BitBuffer.new 0).encodeInt 0 78).endBits := by
    unfold BitBuffer.totalBitOffset
    rw [hc1, hc2, hc3]
    decide
  rw [c9_toBase64_length _ _ hbit hcur, hc3]
  decide

/-! ## Proof machinery: the shared-exponent fixed-point pipeline -/

theorem toUint32_ofNat (n : Nat) (h : n < 2 ^ 32) : toUint32 (n : Int) = n := by
  unfold toUint32
  rw [Int.emod_eq_of_lt (by omega) (by exact_mod_cast h)]
  exact Int.toNat_ofNat n

theorem toInt32_ofNat (n : Nat) (h : n < 2 ^ 31) : toInt32 (n : Int) = n := by
  unfold toInt32
  rw [toUint32_ofNat n (by omega)]
  rw [if_pos h]

theorem jsShiftL32_one (k : Nat) (hk : k ≤ 30) : jsShiftL32 1 k = ((2 ^ k : Nat) : Int) := by
  unfold jsShiftL32
  rw [show toUint32 1 = 1 from rfl, toUint32_ofNat k (by omega),
    Nat.mod_eq_of_lt (by omega), Nat.shiftLeft_eq, Nat.one_mul]
  rw [toInt32_ofNat (2 ^ k) (Nat.pow_lt_pow_right (by norm_num) (by omega))]

theorem foldl_max_le {es : List Int} : ∀ (e : Int), e ≤ es.foldl max e ∧
    ∀ x ∈ es, x ≤ es.foldl max e := by
  induction es with
  | nil => intro e; simp
  | cons y ys ih =>
    intro e
    simp only [List.foldl_cons, List.mem_cons]
    obtain ⟨h1, h2⟩ := ih (max e y)
    refine ⟨le_trans (le_max_left e y) h1, ?_⟩
    intro x hx
    rcases hx with rfl | hx
    · exact le_trans (le_max_right e x) h1
    · exact h2 x hx

theorem mapM_isSome {α β : Type} (f : α → Option β) :
    ∀ l : List α, (∀ a ∈ l, (f a).isSome) → ∃ l', l.mapM f = some l' := by
  intro l
  induction l with
  | nil => intro _; exact ⟨[], rfl⟩
  | cons x xs ih =>
    intro h
    obtain ⟨y, hy⟩ := Option.isSome_iff_exists.mp (h x (by simp))
    obtain ⟨l', hl'⟩ := ih fun a ha => h a (by simp [ha])
    exact ⟨y :: l', by rw [List.mapM_cons, hy, hl']; rfl⟩

theorem toFixedPoint_some (f : Float64) (mantBits : Nat) (e : Int)
    (h : f.exp + 1 ≤ e) :
    toFixedPoint f mantBits (some e) =
      some { neg := f.neg,
             exp := e,
             mant := (if f.mant &&& jsShlB 1 (e - (f.exp + 1) + 53 - mantBits - 1) ≠ 0
                      then jsShrB f.mant (e - (f.exp + 1) + 53 - mantBits) + 1
                      else jsShrB f.mant (e - (f.exp + 1) + 53 - mantBits)) |||
                jsShlB 1 ((mantBits : Int) - 1 - (e - (f.exp + 1))) } := by
  unfold toFixedPoint
  rw [if_neg (by simp only [Option.getD_some]; omega)]
  simp only [Option.getD_some]

/-- C4: `encodeFixedPoints` throws exactly when the maximum of
`exp(v) + 1` over the (nonempty) input reaches `2 ^ (expBits - 1)`; in
particular, arbitrarily small (underflowed) exponents never throw. -/
theorem c4_encodeFixedPoints_throws (b : BitBuffer) (v : Nat) (vs : List Nat)
    (expBits mantBits : Nat) (h1 : 1 ≤ expBits) (h2 : expBits ≤ 31) :
    (b.encodeFixedPoints (v :: vs) ⟨expBits, mantBits⟩ = none ↔
      ((2 ^ (expBits - 1) : Nat) : Int) ≤
        (vs.map fun x => (toFloat x).exp + 1).foldl max ((toFloat v).exp + 1)) := by
  unfold BitBuffer.encodeFixedPoints
  simp only [List.map_cons]
  rw [show ((expBits : Int) - 1) = ((expBits - 1 : Nat) : Int) from by omega,
    jsShiftL32_one (expBits - 1) (by omega)]
  set maxExp := ((vs.map toFloat).map fun f => f.exp + 1).foldl max ((toFloat v).exp + 1)
    with hmax
  have hmax2 : maxExp = (vs.map fun x => (toFloat x).exp + 1).foldl max ((toFloat v).exp + 1) := by
    rw [hmax, List.map_map]
    rfl
  by_cases hc : ((2 ^ (expBits - 1) : Nat) : Int) ≤ maxExp
  · rw [if_pos (ge_iff_le.mpr hc)]
    simp only [hmax2] at hc
    simpa using hc
  · rw [if_neg (fun hge => hc (ge_iff_le.mp hge))]
    have hall : ∀ f ∈ (v :: vs).map toFloat, (toFixedPoint f mantBits (some maxExp)).isSome := by
      intro f hf
      simp only [List.map_cons, List.mem_cons] at hf
      have hle : f.exp + 1 ≤ maxExp := by
        obtain ⟨hhead, htail⟩ := @foldl_max_le ((vs.map toFloat).map fun g => g.exp + 1)
          ((toFloat v).exp + 1)
        rcases hf with rfl | hf
        · exact hhead
        · exact htail _ (List.mem_map_of_mem _ hf)
      rw [toFixedPoint_some f mantBits maxExp hle]
      rfl
    obtain ⟨fps, hfps⟩ := mapM_isSome _ _ hall
    simp only [List.map_cons] at hfps
    rw [hfps]
    simp only [Option.some.injEq, reduceCtorEq, false_iff, not_le]
    simp only [hmax2] at hc
    omega

/-- Witness for C4 at `vals = [1.0, 2.0]`, scheme `{expBits: 5, mantBits: 22}`:
the maximum exponent is 2, below 16, and encoding does not throw. -/
theorem c4_encodeFixedPoints_throws_witness :
    ¬ ((BitBuffer.new 0).encodeFixedPoints
        [0x3FF0000000000000, 0x4000000000000000] ⟨5, 22⟩ = none) := by
  rw [c4_encodeFixedPoints_throws (BitBuffer.new 0) 0x3FF0000000000000
    [0x4000000000000000] 5 22 (by norm_num) (by norm_num)]
  decide

/-- Writing the exponent field, the sign bit and the mantissa field on a
fresh buffer lays out exactly `fields3Bit` and leaves the cursor and the
high-water mark at the total width. -/
theorem encode3_spec (v1 w1 v2 v3 w3 : Nat) :
    let b := (((BitBuffer.new 0).encodeInt v1 w1).encodeInt v2 1).encodeBigInt v3 w3
    b.bitOffset < 8 ∧
    8 * b.byteOffset + b.bitOffset = w1 + 1 + w3 ∧
    b.endBits = w1 + 1 + w3 ∧
    ∀ p, bitAt b.buf p = fields3Bit v1 w1 v2 v3 w3 p := by
  intro b
  have hbdef : b = (((BitBuffer.new 0).encodeInt v1 w1).encodeInt v2 1).encodeInt v3 w3 := rfl
  rw [hbdef]
  obtain ⟨e1c1, e1c2, e1c3, e1b⟩ := encodeInt_spec (BitBuffer.new 0) v1 w1 (by decide)
  set b1 := (BitBuffer.new 0).encodeInt v1 w1 with hb1
  rw [show (8 : Nat) * (BitBuffer.new 0).byteOffset + (BitBuffer.new 0).bitOffset = 0
    from rfl] at e1c1 e1c2 e1c3 e1b
  rw [show (BitBuffer.new 0).endBits = 0 from rfl] at e1c3
  obtain ⟨e2c1, e2c2, e2c3, e2b⟩ := encodeInt_spec b1 v2 1 (by rw [e1c2]; omega)
  set b2 := b1.encodeInt v2 1 with hb2
  rw [e1c1, e1c2] at e2c1 e2c2 e2c3 e2b
  rw [e1c3] at e2c3
  rw [show (8 : Nat) * ((0 + w1) / 8) + (0 + w1) % 8 = w1 from by omega] at e2c1 e2c2 e2c3 e2b
  obtain ⟨e3c1, e3c2, e3c3, e3b⟩ := encodeInt_spec b2 v3 w3 (by rw [e2c2]; omega)
  rw [e2c1, e2c2] at e3c1 e3c2 e3c3 e3b
  rw [e2c3] at e3c3
  rw [show (8 : Nat) * ((w1 + 1) / 8) + (w1 + 1) % 8 = w1 + 1 from by omega]
    at e3c1 e3c2 e3c3 e3b
  refine ⟨by rw [e3c2]; omega, by rw [e3c1, e3c2]; omega, by rw [e3c3]; omega, ?_⟩
  intro p
  rw [e3b p, e2b p, e1b p, bitAt_new]
  unfold fields3Bit
  by_cases h1 : p < w1
  · have hc1 : 0 ≤ p ∧ p < 0 + w1 := by omega
    have hc2 : ¬ (w1 ≤ p ∧ p < w1 + 1) := by omega
    have hc3 : ¬ (w1 + 1 ≤ p ∧ p < w1 + 1 + w3) := by omega
    simp only [decide_eq_true hc1, decide_eq_false hc2, decide_eq_false hc3,
      Bool.true_and, Bool.false_and, Bool.or_false, Bool.false_or, if_pos h1]
    congr 2 <;> omega
  · by_cases h2 : p < w1 + 1
    · have hc1 : ¬ (0 ≤ p ∧ p < 0 + w1) := by omega
      have hc2 : w1 ≤ p ∧ p < w1 + 1 := by omega
      have hc3 : ¬ (w1 + 1 ≤ p ∧ p < w1 + 1 + w3) := by omega
      simp only [decide_eq_true hc2, decide_eq_false hc1, decide_eq_false hc3,
        Bool.true_and, Bool.false_and, Bool.or_false, Bool.false_or,
        if_neg h1, if_pos h2]
    · by_cases h3 : p < w1 + 1 + w3
      · have hc1 : ¬ (0 ≤ p ∧ p < 0 + w1) := by omega
        have hc2 : ¬ (w1 ≤ p ∧ p < w1 + 1) := by omega
        have hc3 : w1 + 1 ≤ p ∧ p < w1 + 1 + w3 := by omega
        simp only [decide_eq_true hc3, decide_eq_false hc1, decide_eq_false hc2,
          Bool.true_and, Bool.false_and, Bool.or_false, Bool.false_or,
          if_neg h1, if_neg h2, if_pos h3]
        congr 2 <;> omega
      · have hc1 : ¬ (0 ≤ p ∧ p < 0 + w1) := by omega
        have hc2 : ¬ (w1 ≤ p ∧ p < w1 + 1) := by omega
        have hc3 : ¬ (w1 + 1 ≤ p ∧ p < w1 + 1 + w3) := by omega
        simp only [decide_eq_false hc1, decide_eq_false hc2, decide_eq_false hc3,
          Bool.false_and, Bool.or_false, if_neg h1, if_neg h2, if_neg h3]

theorem charsOf_congr {f g : Nat → Bool} (alph : List Char) :
    ∀ (count c : Nat), (∀ p, f p = g p) →
      charsOf f alph c count = charsOf g alph c count := by
  intro count
  induction count with
  | zero => intro c _; rfl
  | succ k ih =>
    intro c h
    unfold charsOf
    rw [ih (c + 6) h, bitsVal_congr 6 fun j _ => h (c + j)]

theorem decodeCharsLoop_spec (alph : List Char) :
    ∀ (count : Nat) (b : BitBuffer), b.bitOffset < 8 →
      BitBuffer.decodeCharsLoop alph b count =
        charsOf (bitAt b.buf) alph (8 * b.byteOffset + b.bitOffset) count := by
  intro count
  induction count with
  | zero => intro b _; rfl
  | succ k ih =>
    intro b hbit
    unfold BitBuffer.decodeCharsLoop
    rw [decodeInt_spec b 6 hbit]
    dsimp only
    unfold charsOf
    congr 1
    rw [ih _ (by dsimp only; omega)]
    dsimp only
    rw [show (8 : Nat) * ((8 * b.byteOffset + b.bitOffset + 6) / 8) +
        (8 * b.byteOffset + b.bitOffset + 6) % 8 =
        8 * b.byteOffset + b.bitOffset + 6 from by omega]

/-- `toBase64` on a buffer whose cursor sits at the high-water mark: pad
with zero bits (which changes no stored bit) and emit one character per
6-bit group of the stored bits. -/
theorem toBase64_spec (b : BitBuffer) (alph : List Char) (hbit : b.bitOffset < 8)
    (hcur : 8 * b.byteOffset + b.bitOffset = b.endBits) :
    b.toBase64 alph = charsOf (bitAt b.buf) alph 0 ((b.endBits + 5) / 6) := by
  unfold BitBuffer.toBase64
  dsimp only
  by_cases hov : b.endBits % 6 = 0
  · rw [if_neg (by omega)]
    rw [decodeCharsLoop_spec alph ((b.endBits + 5) / 6) (b.seek 0)
      (show (0 : Nat) &&& 7 < 8 by decide)]
    rw [show (b.seek 0).buf = b.buf from rfl,
      show (b.seek 0).byteOffset = 0 >>> 3 from rfl,
      show (b.seek 0).bitOffset = 0 &&& 7 from rfl,
      show (8 : Nat) * (0 >>> 3) + (0 &&& 7) = 0 from by decide]
  · rw [if_pos (by omega)]
    obtain ⟨hc1, hc2, hc3, hb⟩ := encodeInt_spec b 0 (6 - b.endBits % 6) hbit
    set b2 := b.encodeInt 0 (6 - b.endBits % 6) with hb2
    have hbits2 : ∀ p, bitAt b2.buf p = bitAt b.buf p := by
      intro p
      rw [hb p]
      have hz : ((0 : Nat) % 2 ^ (6 - b.endBits % 6)) = 0 := Nat.zero_mod _
      rw [hz, Nat.zero_testBit]
      simp
    rw [decodeCharsLoop_spec alph ((b2.endBits + 5) / 6) (b2.seek 0)
      (show (0 : Nat) &&& 7 < 8 by decide)]
    rw [show (b2.seek 0).buf = b2.buf from rfl,
      show (b2.seek 0).byteOffset = 0 >>> 3 from rfl,
      show (b2.seek 0).bitOffset = 0 &&& 7 from rfl,
      show (8 : Nat) * (0 >>> 3) + (0 &&& 7) = 0 from by decide]
    rw [charsOf_congr alph _ 0 hbits2]
    rw [hc3, hcur]
    congr 1
    omega

/-- Folding `fromBase64` over characters produced by `charsOf` (all of
which the alphabet lookup resolves) re-encodes exactly the original bits. -/
theorem fromBase64_fold {alph : List Char} (hlen : alph.length = 64)
    (hnd : alph.Nodup) (f : Nat → Bool) :
    ∀ (count c : Nat) (b : BitBuffer), b.bitOffset < 8 →
      8 * b.byteOffset + b.bitOffset = b.endBits →
      ∃ B : BitBuffer,
        List.foldlM (fun (b : BitBuffer) ch =>
            match createLookupMap alph ch with
            | none => none
            | some idx => some (b.encodeInt idx 6)) b (charsOf f alph c count) = some B ∧
        B.bitOffset < 8 ∧
        8 * B.byteOffset + B.bitOffset = B.endBits ∧
        B.endBits = b.endBits + 6 * count ∧
        ∀ p, bitAt B.buf p =
          (bitAt b.buf p ||
            (decide (b.endBits ≤ p ∧ p < b.endBits + 6 * count) &&
              f (c + (p - b.endBits)))) := by
  intro count
  induction count with
  | zero =>
    intro c b hbit hcur
    refine ⟨b, rfl, hbit, hcur, by omega, ?_⟩
    intro p
    have hno : ¬ (b.endBits ≤ p ∧ p < b.endBits + 6 * 0) := by omega
    simp [hno]
  | succ k ih =>
    intro c b hbit hcur
    have hg : bitsVal f c 6 < 64 := bitsVal_lt f c 6
    have hlook : createLookupMap alph (alph.getD (bitsVal f c 6) ' ') =
        some (bitsVal f c 6) := createLookupMap_getD hnd (by omega)
    obtain ⟨hc1, hc2, hc3, hbts⟩ := encodeInt_spec b (bitsVal f c 6) 6 hbit
    set b1 := b.encodeInt (bitsVal f c 6) 6 with hb1
    have hbit1 : b1.bitOffset < 8 := by
      rw [hc2]
      omega
    have hcur1 : 8 * b1.byteOffset + b1.bitOffset = b1.endBits := by
      rw [hc1, hc2, hc3, hcur]
      omega
    have hend1 : b1.endBits = b.endBits + 6 := by
      rw [hc3, hcur]
      omega
    obtain ⟨B, hfold, hBbit, hBcur, hBend, hBbits⟩ := ih (c + 6) b1 hbit1 hcur1
    refine ⟨B, ?_, hBbit, hBcur, by rw [hBend, hend1]; ring, ?_⟩
    · unfold charsOf
      rw [List.foldlM_cons]
      simp only [hlook]
      exact hfold
    · intro p
      rw [hBbits p, hbts p, hend1, hcur]
      by_cases hin1 : b.endBits ≤ p ∧ p < b.endBits + 6
      · have hj : 6 - 1 - (p - b.endBits) < 6 := by omega
        have hin : b.endBits ≤ p ∧ p < b.endBits + 6 * (k + 1) := by omega
        have hout2 : ¬ (b.endBits + 6 ≤ p ∧ p < b.endBits + 6 + 6 * k) := by omega
        rw [Nat.mod_eq_of_lt (show bitsVal f c 6 < 2 ^ 6 by omega), testBit_bitsVal]
        have hjj : c + (6 - 1 - (6 - 1 - (p - b.endBits))) = c + (p - b.endBits) := by
          omega
        simp only [decide_eq_true hj, decide_eq_true hin, decide_eq_false hout2,
          Bool.true_and, Bool.false_and, Bool.or_false, hjj, decide_eq_true hin1,
          Bool.or_assoc]
      · by_cases hin2 : b.endBits + 6 ≤ p ∧ p < b.endBits + 6 + 6 * k
        · have hin : b.endBits ≤ p ∧ p < b.endBits + 6 * (k + 1) := by omega
          have harg : c + 6 + (p - (b.endBits + 6)) = c + (p - b.endBits) := by omega
          simp only [decide_eq_false hin1, decide_eq_true hin2, decide_eq_true hin,
            Bool.false_and, Bool.true_and, Bool.or_false, harg, Bool.or_assoc]
        · have hout : ¬ (b.endBits ≤ p ∧ p < b.endBits + 6 * (k + 1)) := by omega
          simp [hin1, hin2, hout]

/-- `fromBase64` applied to the characters of `charsOf` recovers the bits. -/
theorem fromBase64_charsOf {alph : List Char} (hlen : alph.length = 64)
    (hnd : alph.Nodup) (f : Nat → Bool) (count : Nat) :
    ∃ B : BitBuffer,
      BitBuffer.fromBase64 alph (charsOf f alph 0 count) = some B ∧
      B.byteOffset = 0 ∧ B.bitOffset = 0 ∧ B.endBits = 6 * count ∧
      ∀ p, bitAt B.buf p = (decide (p < 6 * count) && f p) := by
  obtain ⟨B0, hfold, hbit, hcur, hend, hbits⟩ :=
    fromBase64_fold hlen hnd f count 0 (BitBuffer.new 0) (by decide) (by decide)
  refine ⟨B0.seek 0, ?_, rfl, rfl, ?_, ?_⟩
  · simp only [BitBuffer.fromBase64]
    rw [hfold]
    rfl
  · rw [show (B0.seek 0).endBits = B0.endBits from rfl, hend,
      show (BitBuffer.new 0).endBits = 0 from rfl]
    omega
  · intro p
    rw [show (B0.seek 0).buf = B0.buf from rfl, hbits p, bitAt_new,
      show (BitBuffer.new 0).endBits = 0 from rfl]
    by_cases hp : p < 6 * count
    · simp only [Nat.zero_add, Nat.sub_zero, Bool.false_or,
        decide_eq_true (show 0 ≤ p ∧ p < 6 * count by omega),
        decide_eq_true hp, Bool.true_and]
    · simp only [Nat.zero_add, Nat.sub_zero, Bool.false_or,
        decide_eq_false (show ¬ (0 ≤ p ∧ p < 6 * count) by omega),
        decide_eq_false hp, Bool.false_and]

theorem fields3Bit_ge (v1 w1 v2 v3 w3 p : Nat) (h : w1 + 1 + w3 ≤ p) :
    fields3Bit v1 w1 v2 v3 w3 p = false := by
  unfold fields3Bit
  rw [if_neg (by omega), if_neg (by omega), if_neg (by omega)]

theorem jsAnd32_mask (x : Int) (eb : Nat) (hx0 : 0 ≤ x)
    (hx : x < ((2 ^ eb : Nat) : Int)) (heb : eb ≤ 30) :
    jsAnd32 x (((2 ^ eb : Nat) : Int) - 1) = x := by
  unfold jsAnd32
  have hpow : (2 ^ eb : Nat) ≤ 2 ^ 30 := Nat.pow_le_pow_right (by norm_num) heb
  have hxlt : x.toNat < 2 ^ eb := by omega
  have h1 : toUint32 x = x.toNat := by
    unfold toUint32
    rw [Int.emod_eq_of_lt hx0 (by omega)]
  have h2 : (((2 ^ eb : Nat) : Int) - 1) = (((2 ^ eb - 1 : Nat) : Nat) : Int) := by
    have h1e : 1 ≤ (2 ^ eb : Nat) := Nat.one_le_two_pow
    omega
  have h3 : toUint32 (((2 ^ eb : Nat) : Int) - 1) = 2 ^ eb - 1 := by
    rw [h2, toUint32_ofNat (2 ^ eb - 1) (by omega)]
  rw [h1, h3]
  have h4 : Nat.land x.toNat (2 ^ eb - 1) = x.toNat % 2 ^ eb :=
    Nat.and_pow_two_sub_one_eq_mod x.toNat eb
  rw [h4, Nat.mod_eq_of_lt hxlt, toInt32_ofNat x.toNat (by omega)]
  omega

/-- `encodeFixedPoints` on a one-element list with an in-range exponent:
three field writes (biased exponent, sign, mantissa). -/
theorem encodeFixedPoints_one (b : BitBuffer) (w eb mb : Nat) (fp : FixedPoint)
    (heb1 : 1 ≤ eb) (heb2 : eb ≤ 30)
    (hfp : toFixedPoint (toFloat w) mb (some ((toFloat w).exp + 1)) = some fp)
    (hlo : -(((2 ^ (eb - 1) : Nat) : Int)) ≤ (toFloat w).exp + 1)
    (hhi : (toFloat w).exp + 1 < ((2 ^ (eb - 1) : Nat) : Int)) :
    b.encodeFixedPoints [w] ⟨eb, mb⟩ =
      some (((b.encodeInt ((toFloat w).exp + 1 + ((2 ^ (eb - 1) : Nat) : Int)).toNat
        eb).encodeInt (if fp.neg then 1 else 0) 1).encodeBigInt fp.mant mb) := by
  have hP2 : (2 ^ eb : Nat) = 2 ^ (eb - 1) + 2 ^ (eb - 1) := by
    calc (2 ^ eb : Nat) = 2 ^ (eb - 1 + 1) := by rw [show eb - 1 + 1 = eb from by omega]
    _ = 2 ^ (eb - 1) * 2 := pow_succ 2 (eb - 1)
    _ = 2 ^ (eb - 1) + 2 ^ (eb - 1) := by ring
  unfold BitBuffer.encodeFixedPoints
  simp only [List.map_cons, List.map_nil, List.foldl_nil]
  rw [show ((eb : Int) - 1) = ((eb - 1 : Nat) : Int) from by omega,
    jsShiftL32_one (eb - 1) (by omega), jsShiftL32_one eb heb2]
  rw [if_neg (not_le.mpr hhi)]
  rw [jsAnd32_mask ((toFloat w).exp + 1 + ((2 ^ (eb - 1) : Nat) : Int)) eb
    (by omega) (by omega) heb2]
  rw [List.mapM_cons, List.mapM_nil, hfp]
  rfl

/-- Reading one value back out of the three-field layout. -/
theorem decodeFixedPoints_one (B : BitBuffer) (eb mb E negBit mant : Nat)
    (hByte : B.byteOffset = 0) (hBit : B.bitOffset = 0)
    (hbits : ∀ p, bitAt B.buf p = fields3Bit E eb negBit mant mb p)
    (heb1 : 1 ≤ eb) (heb2 : eb ≤ 30)
    (hE : E < 2 ^ eb) (hneg : negBit < 2) (hmant : mant < 2 ^ mb) :
    (B.decodeFixedPoints 1 ⟨eb, mb⟩).1 =
      [fromFloat (fromFixedPoint
        { neg := negBit == 1, exp := (E : Int) - ((2 ^ (eb - 1) : Nat) : Int),
          mant := mant } mb)] := by
  have hfirst : bitsVal (bitAt B.buf) 0 eb = E := by
    apply bitsVal_eq_of_testBit _ _ _ _ hE
    intro j hj
    rw [hbits]
    unfold fields3Bit
    rw [if_pos (by omega), Nat.mod_eq_of_lt hE]
    congr 1
    omega
  have hsign : bitsVal (bitAt B.buf) eb 1 = negBit := by
    apply bitsVal_eq_of_testBit _ _ _ _ (show negBit < 2 ^ 1 from by omega)
    intro j hj
    rw [hbits]
    unfold fields3Bit
    rw [if_neg (by omega), if_pos (by omega),
      Nat.mod_eq_of_lt (show negBit < 2 ^ 1 from by omega)]
    congr 1
    omega
  have hmantv : bitsVal (bitAt B.buf) (eb + 1) mb = mant := by
    apply bitsVal_eq_of_testBit _ _ _ _ hmant
    intro j hj
    rw [hbits]
    unfold fields3Bit
    rw [if_neg (by omega), if_neg (by omega), if_pos (by omega),
      Nat.mod_eq_of_lt hmant]
    congr 1
    omega
  unfold BitBuffer.decodeFixedPoints
  dsimp only
  rw [decodeInt_spec B eb (by rw [hBit]; norm_num)]
  dsimp only
  rw [hByte, hBit]
  simp only [Nat.mul_zero, Nat.zero_add]
  rw [hfirst]
  rw [show ((eb : Int) - 1) = ((eb - 1 : Nat) : Int) from by omega,
    jsShiftL32_one (eb - 1) (by omega)]
  unfold BitBuffer.decodeFixedPointsLoop
  rw [decodeInt_spec _ 1 (by dsimp only; exact Nat.mod_lt _ (by norm_num))]
  dsimp only
  rw [show 8 * (eb / 8) + eb % 8 = eb from by omega]
  rw [hsign]
  rw [decodeBigInt_eq_decodeInt,
    decodeInt_spec _ mb (by dsimp only; exact Nat.mod_lt _ (by norm_num))]
  dsimp only
  rw [show 8 * ((eb + 1) / 8) + (eb + 1) % 8 = eb + 1 from by omega]
  rw [hmantv]
  unfold BitBuffer.decodeFixedPointsLoop
  rfl

/-- The whole lossy pipeline: for a value with an in-range shared exponent,
encoding succeeds and decoding returns the `fromFixedPoint` reconstruction
of the rounded fixed-point value. -/
theorem lossy_pipeline (alph : List Char) (hlen : alph.length = 64)
    (hnd : alph.Nodup) (d w eb mb : Nat) (fp : FixedPoint)
    (heb1 : 1 ≤ eb) (heb2 : eb ≤ 30)
    (hne : jsEq w d = false)
    (hfp : toFixedPoint (toFloat w) mb (some ((toFloat w).exp + 1)) = some fp)
    (hmant : fp.mant < 2 ^ mb)
    (hlo : -(((2 ^ (eb - 1) : Nat) : Int)) ≤ (toFloat w).exp + 1)
    (hhi : (toFloat w).exp + 1 < ((2 ^ (eb - 1) : Nat) : Int)) :
    ∃ s, lossyEncode alph d ⟨eb, mb⟩ w = some (some s) ∧
      lossyDecode alph d ⟨eb, mb⟩ (some s) =
        fromFloat (fromFixedPoint
          { neg := fp.neg, exp := (toFloat w).exp + 1, mant := fp.mant } mb) := by
  have hP2 : (2 ^ eb : Nat) = 2 ^ (eb - 1) + 2 ^ (eb - 1) := by
    calc (2 ^ eb : Nat) = 2 ^ (eb - 1 + 1) := by rw [show eb - 1 + 1 = eb from by omega]
    _ = 2 ^ (eb - 1) * 2 := pow_succ 2 (eb - 1)
    _ = 2 ^ (eb - 1) + 2 ^ (eb - 1) := by ring
  set E : Nat := ((toFloat w).exp + 1 + ((2 ^ (eb - 1) : Nat) : Int)).toNat with hEdef
  have hEint : ((E : Nat) : Int) = (toFloat w).exp + 1 + ((2 ^ (eb - 1) : Nat) : Int) := by
    rw [hEdef]
    omega
  have hE : E < 2 ^ eb := by omega
  set negBit : Nat := if fp.neg then 1 else 0 with hnegdef
  have hneg : negBit < 2 := by rw [hnegdef]; split <;> norm_num
  obtain ⟨hc1, hc2, hc3, hc4⟩ := encode3_spec E eb negBit fp.mant mb
  set b3 := (((BitBuffer.new 0).encodeInt E eb).encodeInt negBit 1).encodeBigInt fp.mant mb
    with hb3
  have henc : lossyEncode alph d ⟨eb, mb⟩ w = some (some (b3.toBase64 alph)) := by
    unfold lossyEncode
    rw [if_neg (by simp [hne])]
    rw [encodeFixedPoints_one (BitBuffer.new 0) w eb mb fp heb1 heb2 hfp hlo hhi]
  set cnt : Nat := (eb + 1 + mb + 5) / 6 with hcnt
  have hchars : b3.toBase64 alph =
      charsOf (fields3Bit E eb negBit fp.mant mb) alph 0 cnt := by
    rw [toBase64_spec b3 alph (by omega) (by omega), hc3]
    exact charsOf_congr alph cnt 0 hc4
  obtain ⟨B, hfb, hBbyte, hBbit, hBend, hBbits⟩ :=
    fromBase64_charsOf hlen hnd (fields3Bit E eb negBit fp.mant mb) cnt
  have hcov : eb + 1 + mb ≤ 6 * cnt := by omega
  have hbits' : ∀ p, bitAt B.buf p = fields3Bit E eb negBit fp.mant mb p := by
    intro p
    rw [hBbits p]
    by_cases hp : p < 6 * cnt
    · rw [decide_eq_true hp, Bool.true_and]
    · rw [decide_eq_false hp, Bool.false_and, fields3Bit_ge _ _ _ _ _ _ (by omega)]
  have hdec :
      lossyDecode alph d ⟨eb, mb⟩ (some (b3.toBase64 alph)) =
        fromFloat (fromFixedPoint
          { neg := fp.neg, exp := (toFloat w).exp + 1, mant := fp.mant } mb) := by
    unfold lossyDecode
    dsimp only
    rw [hchars]
    have hnil : charsOf (fields3Bit E eb negBit fp.mant mb) alph 0 cnt ≠ [] := by
      rw [show cnt = (cnt - 1) + 1 from by omega]
      simp only [charsOf]
      exact List.cons_ne_nil _ _
    rw [if_neg hnil, hfb]
    dsimp only
    rw [decodeFixedPoints_one B eb mb E negBit fp.mant hBbyte hBbit hbits'
      heb1 heb2 hE hneg hmant]
    have hstruct :
        ({ neg := negBit == 1, exp := (E : Int) - ((2 ^ (eb - 1) : Nat) : Int),
           mant := fp.mant } : FixedPoint) =
        { neg := fp.neg, exp := (toFloat w).exp + 1, mant := fp.mant } := by
      have h1 : (negBit == 1) = fp.neg := by
        rw [hnegdef]
        cases fp.neg <;> rfl
      have h2 : (E : Int) - ((2 ^ (eb - 1) : Nat) : Int) = (toFloat w).exp + 1 := by
        omega
      rw [h1, h2]
    rw [hstruct]
    rfl
  exact ⟨b3.toBase64 alph, henc, hdec⟩

/-! ## The lossy error bound: the claims C2 and C3

The patterns: `4614256656552045848 = 0x400921FB54442D18` is `π`
(exponent `1`), `4614256657285775360` its lossy `{5, 22}` round trip;
`4611686018427387903 = 0x3FFFFFFFFFFFFFFF` is `1.9999999999999998`
(exponent `0`), whose round trip collapses to `1.0 = 0x3FF0000000000000 =
4607182418800017408`. -/

theorem val_piDecoded : val 4614256657285775360 =
    ((2 : ℚ) ^ (52 : Nat) + 2570638858387456) * (2 : ℚ) ^ ((1024 : Int) - 1075) := by
  simp only [val, show signBit 4614256657285775360 = false from by decide,
    show expField 4614256657285775360 = 1024 from by decide,
    show mantField 4614256657285775360 = 2570638858387456 from by decide]
  norm_num

theorem val_pi : val 4614256656552045848 =
    ((2 : ℚ) ^ (52 : Nat) + 2570638124657944) * (2 : ℚ) ^ ((1024 : Int) - 1075) := by
  simp only [val, show signBit 4614256656552045848 = false from by decide,
    show expField 4614256656552045848 = 1024 from by decide,
    show mantField 4614256656552045848 = 2570638124657944 from by decide]
  norm_num

theorem val_almostTwo : val 4611686018427387903 =
    ((2 : ℚ) ^ (52 : Nat) + 4503599627370495) * (2 : ℚ) ^ ((1023 : Int) - 1075) := by
  simp only [val, show signBit 4611686018427387903 = false from by decide,
    show expField 4611686018427387903 = 1023 from by decide,
    show mantField 4611686018427387903 = 4503599627370495 from by decide]
  norm_num

theorem val_one : val 4607182418800017408 =
    ((2 : ℚ) ^ (52 : Nat) + 0) * (2 : ℚ) ^ ((1023 : Int) - 1075) := by
  simp only [val, show signBit 4607182418800017408 = false from by decide,
    show expField 4607182418800017408 = 1023 from by decide,
    show mantField 4607182418800017408 = 0 from by decide]
  norm_num

/-- C3: for the scheme `{expBits := 5, mantBits := 22}` and `v = π`
(pattern `0x400921FB54442D18`, unbiased exponent `1`), the lossy base64
converter encodes `v` to a string, and decoding it back yields a value
whose distance from `v` is strictly below `2 ^ (1 - 22)`. -/
theorem c3_pi_lossy_error_bound :
    ∃ s, lossyEncode rfc4648 0 ⟨5, 22⟩ 4614256656552045848 = some (some s) ∧
      |val (lossyDecode rfc4648 0 ⟨5, 22⟩ (some s)) - val 4614256656552045848| <
        (2 : ℚ) ^ ((1 : Int) - 22) := by
  obtain ⟨s, henc, hdec⟩ := lossy_pipeline rfc4648 (by decide) (by decide)
    0 4614256656552045848 5 22 ⟨false, 2, 3294199⟩ (by decide) (by decide)
    (by decide) (by decide) (by decide) (by decide) (by decide)
  refine ⟨s, henc, ?_⟩
  rw [hdec,
    show fromFloat (fromFixedPoint
      { neg := (⟨false, 2, 3294199⟩ : FixedPoint).neg,
        exp := (toFloat 4614256656552045848).exp + 1,
        mant := (⟨false, 2, 3294199⟩ : FixedPoint).mant } 22) = 4614256657285775360
      from by decide,
    val_piDecoded, val_pi, abs_sub_lt_iff]
  constructor <;> norm_num

/-- C2: the claimed bound `|decode(encode(v)) - v| ≤ 2 ^ (exp(v) - mantBits)`
fails. Take `v = 0x3FFFFFFFFFFFFFFF = 1.9999999999999998` (unbiased
exponent `0`) and the scheme `{expBits := 5, mantBits := 22}`: the rounding
carry in `toFixedPoint` overflows into the implicit-one marker bit, the
decoder therefore sees a shorter significand, and the round trip returns
`1.0` — an error of nearly `1`, far above `2 ^ (0 - 22)`. -/
theorem c2_lossy_error_bound_violated :
    ∃ s, lossyEncode rfc4648 0 ⟨5, 22⟩ 4611686018427387903 = some (some s) ∧
      ¬ (|val (lossyDecode rfc4648 0 ⟨5, 22⟩ (some s)) - val 4611686018427387903| ≤
        (2 : ℚ) ^ ((0 : Int) - 22)) := by
  obtain ⟨s, henc, hdec⟩ := lossy_pipeline rfc4648 (by decide) (by decide)
    0 4611686018427387903 5 22 ⟨false, 1, 2097152⟩ (by decide) (by decide)
    (by decide) (by decide) (by decide) (by decide) (by decide)
  refine ⟨s, henc, ?_⟩
  rw [hdec,
    show fromFloat (fromFixedPoint
      { neg := (⟨false, 1, 2097152⟩ : FixedPoint).neg,
        exp := (toFloat 4611686018427387903).exp + 1,
        mant := (⟨false, 1, 2097152⟩ : FixedPoint).mant } 22) = 4607182418800017408
      from by decide,
    val_one, val_almostTwo, not_le, lt_abs]
  right
  norm_num

/-! ## The factory contract: claim C5 -/

/-- C5: counterexample to the no-error-propagation part. The lossy encoder
calls `encodeFixedPoints` outside any `try`, so the exponent-overflow
error escapes to the caller (the outer `none` is the uncaught exception):
`1043 * 2 ^ 52` is the pattern of `2 ^ 20`, whose shared exponent `21`
exceeds what `expBits = 5` can represent. -/
theorem c5_lossy_encode_throws :
    lossyEncode rfc4648 0 ⟨5, 22⟩ (1043 * 2 ^ 52) = none := rfl

/-- C5 (amended): in every factory mode, encoding a value that is
JavaScript-`===` the configured default yields the absent sentinel, and
decoding the absent sentinel — or a failing input: a short base64 payload,
an invalid base64 character, an unparsable number string — returns the
default instead of raising; decoding never propagates an error, but the
lossy (and point base64) encoder can throw. -/
theorem c5_default_contract :
    (∀ alph d w, jsEq w d = true → losslessEncode alph d w = none) ∧
    (∀ alph d, losslessDecode alph d none = d) ∧
    (∀ alph d str, bytesToFloat (base64Decode alph str) = none →
      losslessDecode alph d (some str) = d) ∧
    (∀ alph d s w, jsEq w d = true → lossyEncode alph d s w = some none) ∧
    (∀ alph d s, lossyDecode alph d s none = d) ∧
    (∀ alph d s str, BitBuffer.fromBase64 alph str = none →
      lossyDecode alph d s (some str) = d) ∧
    (∀ f d w, jsEq w d = true → fullStringEncode f d w = none) ∧
    (∀ f d, fullStringDecode f d none = d) ∧
    (∀ f d str, isNaNPat (f str) = true → fullStringDecode f d (some str) = d) ∧
    (∀ f d w, jsEq w d = true → truncatedStringEncode f d w = none) ∧
    (∀ f d, truncatedStringDecode f d none = d) ∧
    (∀ alph s x y dx dy, (jsEq x dx && jsEq y dy) = true →
      pointB64Encode alph (some (dx, dy)) s (some (x, y)) = some none) ∧
    (∀ alph dp s, pointB64Decode alph dp s none = dp) ∧
    (∀ alph dp s str, BitBuffer.fromBase64 alph str = none →
      pointB64Decode alph dp s (some str) = dp) ∧
    (∀ fmt x y dx dy, (jsEq x dx && jsEq y dy) = true →
      pointStringEncode fmt (some (dx, dy)) (some (x, y)) = none) ∧
    (∀ p dp, pointStringDecode p dp none = dp) := by
  refine ⟨?_, ?_, ?_, ?_, ?_, ?_, ?_, ?_, ?_, ?_, ?_, ?_, ?_, ?_, ?_, ?_⟩
  · intro alph d w h
    unfold losslessEncode
    rw [if_pos h]
  · intro alph d
    rfl
  · intro alph d str h
    unfold losslessDecode
    dsimp only
    by_cases hs : str = []
    · rw [if_pos hs]
    · rw [if_neg hs, h]
  · intro alph d s w h
    unfold lossyEncode
    rw [if_pos h]
  · intro alph d s
    rfl
  · intro alph d s str h
    unfold lossyDecode
    dsimp only
    by_cases hs : str = []
    · rw [if_pos hs]
    · rw [if_neg hs, h]
  · intro f d w h
    unfold fullStringEncode
    rw [if_pos h]
  · intro f d
    rfl
  · intro f d str h
    unfold fullStringDecode
    dsimp only
    by_cases hs : str = []
    · rw [if_pos hs]
    · rw [if_neg hs, if_pos h]
  · intro f d w h
    unfold truncatedStringEncode
    rw [if_pos h]
  · intro f d
    rfl
  · intro alph s x y dx dy h
    unfold pointB64Encode
    dsimp only
    rw [if_pos h]
  · intro alph dp s
    rfl
  · intro alph dp s str h
    unfold pointB64Decode
    dsimp only
    by_cases hs : str = []
    · rw [if_pos hs]
    · rw [if_neg hs, h]
  · intro fmt x y dx dy h
    unfold pointStringEncode
    dsimp only
    rw [if_pos h]
  · intro p dp
    rfl

/-- Closed instances of the C5 contract: default-equality encoding in
lossless, lossy and point modes at the pattern of `π` (and the point
`(3, 5)`), absent-sentinel decoding, a short base64 payload, an invalid
base64 character and a NaN parse all routed to the default. -/
theorem c5_default_contract_witness :
    losslessEncode rfc4648 4614256656552045848 4614256656552045848 = none ∧
    losslessDecode rfc4648 7 none = 7 ∧
    losslessDecode rfc4648 7 (some ['A']) = 7 ∧
    lossyEncode rfc4648 4614256656552045848 ⟨5, 22⟩ 4614256656552045848 = some none ∧
    lossyDecode rfc4648 7 ⟨5, 22⟩ (some ['*']) = 7 ∧
    fullStringDecode (fun _ => 0x7FF8000000000000) 7 (some ['x']) = 7 ∧
    pointB64Encode rfc4648 (some (3, 5)) ⟨5, 22⟩ (some (3, 5)) = some none ∧
    pointB64Decode rfc4648 (some (3, 5)) ⟨5, 22⟩ (some ['*']) = some (3, 5) :=
  ⟨c5_default_contract.1 rfc4648 4614256656552045848 4614256656552045848 (by decide),
   c5_default_contract.2.1 rfc4648 7,
   c5_default_contract.2.2.1 rfc4648 7 ['A'] rfl,
   c5_default_contract.2.2.2.1 rfc4648 4614256656552045848 ⟨5, 22⟩
     4614256656552045848 (by decide),
   c5_default_contract.2.2.2.2.2.1 rfc4648 7 ⟨5, 22⟩ ['*'] rfl,
   c5_default_contract.2.2.2.2.2.2.2.2.1 (fun _ => 0x7FF8000000000000) 7 ['x']
     (by decide),
   c5_default_contract.2.2.2.2.2.2.2.2.2.2.2.1 rfc4648 ⟨5, 22⟩
     3 5 3 5 (by decide),
   c5_default_contract.2.2.2.2.2.2.2.2.2.2.2.2.2.1 rfc4648 (some (3, 5)) ⟨5, 22⟩
     ['*'] rfl⟩

end UP
